import Mathlib

/-!
Verification of the proxylab component of this repository: the LRU cache
(`src/proxylab/cache.c`), the request rewriter, the request parser driver and
the response forwarder (the proxy's main C file).

The cache is embedded as a state machine: entries live in an explicit
allocation table (`heap`, an association list from allocation ids to entry
records), the intrusive circular doubly-linked list of `cache.c` is embedded
as the flat list `lru` of allocation ids ordered from the MRU head to the LRU
tail, and `free` is embedded as setting the `freed` flag of an entry.  All
`size_t` arithmetic of the C source is carried out modulo `2 ^ 64`.
-/

namespace Proxy

/-- Number of values of the C type `size_t` (the target is 64-bit). -/
def SIZE_T_MOD : Nat := 2 ^ 64

/-- `MAX_CACHE_SIZE` from `cache.h`: `1024 * 1024` bytes. -/
def MAX_CACHE_SIZE : Nat := 1024 * 1024

/-- `MAX_OBJECT_SIZE` from `cache.h`: `100 * 1024` bytes. -/
def MAX_OBJECT_SIZE : Nat := 100 * 1024

/-- `MAXLINE` from the csapp support library: size of the fixed
`char new_req[MAXLINE]` buffer used by `serve` for the rewritten request. -/
def MAXLINE : Nat := 8192

/-- Wrapping `size_t` addition (`cache->size += e->size`). -/
def wAdd (a b : Nat) : Nat := (a + b) % SIZE_T_MOD

/-- Wrapping `size_t` subtraction (`cache->size -= e->size`). -/
def wSub (a b : Nat) : Nat := (a + (SIZE_T_MOD - b % SIZE_T_MOD)) % SIZE_T_MOD

/-- `struct entry` of `cache.c`: key string, value bytes, size in bytes and
reference count.  The `freed` flag is not a C field; it records whether
`free_entry` has run on this entry (its key and value buffers were freed). -/
structure Entry where
  key : String
  val : List Nat
  size : Nat
  ref : Int
  freed : Bool
deriving DecidableEq, Repr

/-- Look an allocation id up in the allocation table. -/
def hFind : List (Nat × Entry) → Nat → Option Entry
  | [], _ => none
  | (j, e) :: t, i => if j = i then some e else hFind t i

/-- Overwrite the entry stored under an allocation id (no-op if absent). -/
def hSet : List (Nat × Entry) → Nat → Entry → List (Nat × Entry)
  | [], _, _ => []
  | (j, e0) :: t, i, e => if j = i then (j, e) :: t else (j, e0) :: hSet t i e

/-- `_cache_t` of `cache.c`.  `heap` is the allocation table of all entries
ever created, `nextId` the next fresh allocation id, `lru` the circular list
flattened from the head (`cache->head`, MRU) to the tail (LRU), and `size`
the `size` field (total bytes held by the list). -/
structure Cache where
  heap : List (Nat × Entry)
  nextId : Nat
  lru : List Nat
  size : Nat
deriving DecidableEq, Repr

/-- The `size` field of the entry stored under an id (0 if the id is dead). -/
def sizeOfId (h : List (Nat × Entry)) (i : Nat) : Nat :=
  ((hFind h i).map Entry.size).getD 0

/-- The `key` field of the entry stored under an id. -/
def keyOf (h : List (Nat × Entry)) (i : Nat) : Option String :=
  (hFind h i).map Entry.key

/-- The immutable payload (key, value bytes, size) of the entry under an id. -/
def dataOf (h : List (Nat × Entry)) (i : Nat) : Option (String × List Nat × Nat) :=
  (hFind h i).map (fun e => (e.key, e.val, e.size))

/-- Sum of the sizes of the entries linked into a list of ids. -/
def sumSizes (h : List (Nat × Entry)) (l : List Nat) : Nat :=
  (l.map (sizeOfId h)).sum

/-- Sum of the sizes of all entries currently held by the cache's LRU list. -/
def heldSize (c : Cache) : Nat := sumSizes c.heap c.lru

/-- Whether the entry under id `i` has key `k` (the `strcmp` of `find`). -/
def keyMatches (h : List (Nat × Entry)) (k : String) (i : Nat) : Bool :=
  match hFind h i with
  | some e => e.key == k
  | none => false

/-- `find` of `cache.c`: walk the circular list from the head and return the
first entry whose key matches. -/
def find (c : Cache) (k : String) : Option Nat :=
  c.lru.find? (keyMatches c.heap k)

/-- `insert_front` of `cache.c`: link an entry in as the new head and add its
size to the total. -/
def insert_front (c : Cache) (i : Nat) : Cache :=
  { c with lru := i :: c.lru, size := wAdd c.size (sizeOfId c.heap i) }

/-- `remove_entry` of `cache.c`: unlink an entry and subtract its size. -/
def remove_entry (c : Cache) (i : Nat) : Cache :=
  { c with lru := c.lru.erase i, size := wSub c.size (sizeOfId c.heap i) }

/-- `free_entry` of `cache.c`: free the entry's value, key and record. -/
def free_entry (c : Cache) (i : Nat) : Cache :=
  match hFind c.heap i with
  | some e => { c with heap := hSet c.heap i { e with freed := true } }
  | none => c

/-- The statement `if (--e->ref == 0) free_entry(e);` shared by
`evict_entry` and `cache_entry_release` of `cache.c`: decrement the entry's
reference count in place and destroy it when the count reaches zero. -/
def deref (c : Cache) (i : Nat) : Cache :=
  match hFind c.heap i with
  | some e =>
    if e.ref - 1 = 0 then
      free_entry { c with heap := hSet c.heap i { e with ref := e.ref - 1 } } i
    else
      { c with heap := hSet c.heap i { e with ref := e.ref - 1 } }
  | none => c

/-- `evict_entry` of `cache.c`: unlink, drop the cache's reference, destroy
the entry if that reference was the last one. -/
def evict_entry (c : Cache) (i : Nat) : Cache :=
  deref (remove_entry c i) i

/-- The eviction loop of `cache_insert`: while the total size exceeds
`MAX_CACHE_SIZE` and the list is non-empty, evict `cache->head->prev` (the
LRU tail).  `fuel` bounds the iteration count; callers pass the list length,
which the C loop can never exceed since every iteration unlinks one entry. -/
def evictLoop : Nat → Cache → Cache
  | 0, c => c
  | fuel + 1, c =>
    if MAX_CACHE_SIZE < c.size then
      match c.lru.getLast? with
      | some t => evictLoop fuel (evict_entry c t)
      | none => c
    else c

/-- `cache_create` of `cache.c`: the empty cache. -/
def cache_create : Cache := { heap := [], nextId := 0, lru := [], size := 0 }

/-- `cache_insert` of `cache.c`.  Rejects oversized objects; promotes an
existing key; otherwise allocates a copy of the data with reference count 1,
links it at the head and runs the eviction loop. -/
def cache_insert (c : Cache) (k : String) (v : List Nat) (sz : Nat) :
    Cache × Option Nat :=
  if MAX_OBJECT_SIZE < sz then (c, none)
  else
    match find c k with
    | none =>
      let n := c.nextId
      let e : Entry := { key := k, val := v, size := sz, ref := 1, freed := false }
      let c1 : Cache := { c with heap := (n, e) :: c.heap, nextId := n + 1 }
      let c2 := insert_front c1 n
      (evictLoop c2.lru.length c2, some n)
    | some i => (insert_front (remove_entry c i) i, some i)

/-- The allocate-and-link-front phase of `cache_insert` on a fresh key,
before the eviction loop. -/
def allocFront (c : Cache) (k : String) (v : List Nat) (sz : Nat) : Cache :=
  insert_front
    { c with
      heap := (c.nextId,
        { key := k, val := v, size := sz, ref := 1, freed := false }) :: c.heap,
      nextId := c.nextId + 1 }
    c.nextId

/-- `cache_get` of `cache.c`: on a hit, move the entry to the front and
increment its reference count. -/
def cache_get (c : Cache) (k : String) : Cache × Option Nat :=
  match find c k with
  | none => (c, none)
  | some i =>
    let c1 := insert_front (remove_entry c i) i
    match hFind c1.heap i with
    | some e =>
      ({ c1 with heap := hSet c1.heap i { e with ref := e.ref + 1 } }, some i)
    | none => (c1, some i)

/-- `cache_entry_release` of `cache.c`: drop one reference and destroy the
entry if it was the last one. -/
def cache_entry_release (c : Cache) (i : Nat) : Cache :=
  deref c i

/-- One cache operation issued by some worker.  The cache mutex serializes the
three operations, so an interleaving of workers is a sequence of these. -/
inductive SOp where
  | insert (k : String) (v : List Nat) (sz : Nat)
  | get (k : String)
  | release (i : Nat)
deriving DecidableEq, Repr

/-- A cache together with the multiset of handles handed out by `cache_get`
and not yet passed to `cache_entry_release`. -/
structure Sys where
  cache : Cache
  live : List Nat
deriving DecidableEq, Repr

/-- The state right after `cache_create`. -/
def sysInit : Sys := { cache := cache_create, live := [] }

/-- Execute one operation.  `release` is only defined on a handle previously
obtained from `get` and not yet released (the discipline the proxy's workers
follow); anything else is rejected. -/
def sysStep (s : Sys) : SOp → Option Sys
  | .insert k v sz => some { s with cache := (cache_insert s.cache k v sz).1 }
  | .get k =>
    let r := cache_get s.cache k
    some { cache := r.1,
           live := match r.2 with
                   | some i => i :: s.live
                   | none => s.live }
  | .release i =>
    if i ∈ s.live then
      some { cache := cache_entry_release s.cache i, live := s.live.erase i }
    else none

/-- Execute a sequence of operations. -/
def sysRun : Sys → List SOp → Option Sys
  | s, [] => some s
  | s, op :: ops =>
    match sysStep s op with
    | some s1 => sysRun s1 ops
    | none => none

/-- The `header_user_agent` string of the proxy's main file. -/
def header_user_agent : String :=
  "Mozilla/5.0 (X11; Linux x86_64; rv:3.10.0) Gecko/20220411 Firefox/63.0.1"

/-- `http_info` of the proxy's main file (all fields as retrieved). -/
structure HttpInfo where
  method : String
  version : String
  scheme : String
  uri : String
  host : String
  port : String
  path : String
deriving DecidableEq, Repr

/-- Whether a header name is in the always-overridden set of
`construct_new_request` (the comparison in C is `strcmp`, case-sensitive). -/
def overridden (nm : String) : Bool :=
  nm == "Connection" || nm == "Proxy-Connection" || nm == "User-Agent"

/-- Whether the client supplied a `Host` header (case-sensitive `strcmp`). -/
def hostFound (hs : List (String × String)) : Bool :=
  hs.any (fun h => h.1 == "Host")

/-- One emitted header line, `"%s: %s\r\n"`. -/
def headerLine (h : String × String) : String := h.1 ++ ": " ++ h.2 ++ "\r\n"

/-- The headers emitted by `construct_new_request`, in emission order: the
client's headers minus the overridden ones, then a synthesized `Host` when
the client sent none, then the three fixed override headers. -/
def emittedHeaders (info : HttpInfo) (hs : List (String × String)) :
    List (String × String) :=
  hs.filter (fun h => !overridden h.1)
    ++ (if hostFound hs then [] else [("Host", info.host ++ ":" ++ info.port)])
    ++ [("Connection", "close"), ("Proxy-Connection", "close"),
        ("User-Agent", header_user_agent)]

/-- `construct_new_request` of the proxy's main file.  The first component is
the C return value: the source has no failure path and always returns `true`
(its overflow checks are an unimplemented TODO).  The second component is the
sequence of bytes the chain of `snprintf` calls tries to place in the
caller's `MAXLINE` buffer. -/
def construct_new_request (info : HttpInfo) (hs : List (String × String)) :
    Bool × String :=
  (true,
    "GET " ++ info.uri ++ " HTTP/1.0\r\n"
      ++ String.join ((emittedHeaders info hs).map headerLine)
      ++ "\r\n")

/-- Result of `parser_parse_line` (external line-parser library). -/
inductive LineResult where
  | request
  | header
  | error
deriving DecidableEq, Repr

/-- The read loop of `parse_http_request`: lines arrive with the verdict the
external parser returns for them; the loop stops at EOF, at the blank line
ending the headers, or at the first parser error, and returns `n`, the total
number of characters of the successfully parsed lines. -/
def parseLoopN : List (String × LineResult) → Nat → Nat
  | [], n => n
  | (l, r) :: rest, n =>
    if l = "\r\n" then n
    else if r = LineResult.error then n
    else parseLoopN rest (n + l.length)

/-- The retrievable state of the external parser after the read loop: for
each field, `some` if `parser_retrieve` succeeds (returns 0) and `none` if it
fails (returns nonzero). -/
structure ParserOut where
  version : Option String
  method : Option String
  scheme : Option String
  uri : Option String
  host : Option String
  port : Option String
  path : Option String
deriving DecidableEq, Repr

/-- `parse_http_request` of the proxy's main file, given the client's lines
with their parse verdicts and the parser's retrievable state.  Returns the C
return value together with the list of `(errnum, shortmsg)` error replies
sent to the client by `clienterror`. -/
def parse_http_request (lines : List (String × LineResult)) (p : ParserOut) :
    Bool × List (String × String) :=
  if parseLoopN lines 0 = 0 then (false, [])
  else
    match p.version with
    | none => (false, [("400", "Bad Request")])
    | some v =>
      if v = "1.0" ∨ v = "1.1" then
        match p.method with
        | none => (false, [("400", "Bad Request")])
        | some m =>
          if m = "GET" then
            match p.scheme with
            | none => (false, [("400", "Bad Request")])
            | some sc =>
              if sc = "http" then
                match p.uri with
                | none => (false, [("400", "Bad Request")])
                | some _ =>
                  match p.host with
                  | none => (false, [("400", "Bad Request")])
                  | some _ =>
                    match p.port with
                    | none => (false, [("400", "Bad Request")])
                    | some _ =>
                      match p.path with
                      | none => (false, [("400", "Bad Request")])
                      | some _ => (true, [])
              else (false, [("501", "Not Implemented")])
          else (false, [("501", "Not Implemented")])
      else (false, [("400", "Bad Request")])

/-- The read/write loop of `forward_http_response`.  `rio_readnb` into the
`MAX_OBJECT_SIZE` buffer returns full blocks except at EOF, so each iteration
takes the next block of up to `MAX_OBJECT_SIZE` bytes of the origin stream,
appends it to the bytes written to the client, overwrites the single
accumulation buffer with it and adds its length to the running `size_t`
total.  `fuel` bounds the iterations; callers pass the stream length. -/
def forwardLoop : Nat → List Nat → List Nat → List Nat → Nat →
    List Nat × List Nat × Nat
  | 0, _, written, buf, total => (written, buf, total)
  | fuel + 1, stream, written, buf, total =>
    let chunk := stream.take MAX_OBJECT_SIZE
    if chunk.length = 0 then (written, buf, total)
    else forwardLoop fuel (stream.drop MAX_OBJECT_SIZE) (written ++ chunk)
      chunk (wAdd total chunk.length)

/-- `forward_http_response` of the proxy's main file on an error-free
exchange: the bytes written to the client, and the `(buffer, size)` argument
passed to `cache_insert` when the end-of-stream cache decision
(`cache_size <= MAX_OBJECT_SIZE && cache_size > 0`) fires. -/
def forward_http_response (stream : List Nat) :
    List Nat × Option (List Nat × Nat) :=
  let r := forwardLoop stream.length stream [] [] 0
  (r.1, if r.2.2 ≤ MAX_OBJECT_SIZE ∧ 0 < r.2.2 then some (r.2.1, r.2.2) else none)

/-- Key `kn` of the eviction scenario. -/
def scenKey (n : Nat) : String := "k" ++ toString n

/-- Insert the scenario object `kn` with one byte of payload and the given
declared size. -/
def scenIns (sz : Nat) (c : Cache) (n : Nat) : Cache :=
  (cache_insert c (scenKey n) [n] sz).1

/-- Insert scenario objects `k0 .. k(cnt-1)` of the given size in order into
a fresh cache. -/
def scenRun (sz cnt : Nat) : Cache :=
  (List.range cnt).foldl (scenIns sz) cache_create

/-- The eviction-scenario object size named by the spec: 200 KiB. -/
def SCEN_SIZE : Nat := 200 * 1024

/-- Whether an operation is an insert of an admissible size (used to state
the byte-budget claim exactly as the spec quantifies it). -/
def insOK : SOp → Bool
  | SOp.insert _ _ sz => decide (sz ≤ MAX_OBJECT_SIZE)
  | _ => true

/-- A short concrete operation sequence exercising insert, get and release. -/
def c1ops : List SOp :=
  [SOp.insert "a" [1] 3, SOp.get "a", SOp.release 0, SOp.insert "b" [2] 102400]

/-- A concrete sequence leaving one outstanding handle. -/
def c2ops : List SOp := [SOp.insert "k" [7] 3, SOp.get "k"]

/-- A 9000-character URI: its request line alone overflows `MAXLINE`. -/
def c6uri : String := (List.replicate 9000 'a').asString

/-- A parsed request whose rewritten form overflows the request buffer. -/
def c6info : HttpInfo :=
  { method := "GET", version := "1.1", scheme := "http", uri := c6uri,
    host := "h", port := "80", path := "/" }

/-- A client request whose very first line fails to parse. -/
def c7lines : List (String × LineResult) := [("GARBAGE\r\n", LineResult.error)]

/-- The parser state after no line was parsed: nothing is retrievable. -/
def c7parser : ParserOut :=
  { version := none, method := none, scheme := none, uri := none,
    host := none, port := none, path := none }

/-- The indicator used by the reference-count bookkeeping: 1 if the LRU list
itself holds a reference to the id, else 0. -/
def ind (l : List Nat) (i : Nat) : Int := if i ∈ l then 1 else 0

/-- Structural well-formedness of a cache with an outstanding-handle
multiset: the flattened list holds distinct ids of live entries with
pairwise-distinct keys and bounded sizes, the `size` field equals the held
total, handles point to live entries, and every live entry's reference count
is exactly the list's share plus its outstanding handles, while a destroyed
entry has no references at all. -/
structure Shape (c : Cache) (hs : List Nat) : Prop where
  nd : c.lru.Nodup
  idlt : ∀ i ∈ c.lru, i < c.nextId
  fresh : ∀ i, c.nextId ≤ i → hFind c.heap i = none
  live : ∀ i ∈ c.lru, ∃ e, hFind c.heap i = some e ∧ e.freed = false
  szle : ∀ i e, hFind c.heap i = some e → e.size ≤ MAX_OBJECT_SIZE
  keys : c.lru.Pairwise (fun i j => keyOf c.heap i ≠ keyOf c.heap j)
  szeq : c.size = heldSize c
  handles : ∀ i ∈ hs, ∃ e, hFind c.heap i = some e ∧ e.freed = false
  refs : ∀ i e, hFind c.heap i = some e → e.freed = false →
    e.ref = ind c.lru i + (hs.count i : Int)
  fref : ∀ i e, hFind c.heap i = some e → e.freed = true →
    e.ref = 0 ∧ i ∉ c.lru ∧ hs.count i = 0

/-- Full invariant: structure plus the byte-budget bound. -/
def WF (s : Sys) : Prop :=
  Shape s.cache s.live ∧ heldSize s.cache ≤ MAX_CACHE_SIZE

/-- The no-intervening-eviction condition: along every prefix of `ops` run
from `s`, the entry with id `i` stays linked in the LRU list. -/
def HeldAlong (s : Sys) (i : Nat) (ops : List SOp) : Prop :=
  ∀ p rest s', ops = p ++ rest → sysRun s p = some s' → i ∈ s'.cache.lru

/-! ### Allocation-table lemmas -/

theorem hFind_cons (j : Nat) (e : Entry) (t : List (Nat × Entry)) (i : Nat) :
    hFind ((j, e) :: t) i = if j = i then some e else hFind t i := rfl

theorem hFind_hSet_ne (h : List (Nat × Entry)) {i j : Nat} (e : Entry)
    (hne : j ≠ i) : hFind (hSet h i e) j = hFind h j := by
  induction h with
  | nil => rfl
  | cons p t ih =>
    obtain ⟨a, b⟩ := p
    simp only [hSet]
    by_cases hai : a = i
    · have haj : ¬(a = j) := fun hji => hne (hji ▸ hai)
      rw [if_pos hai, hFind_cons, hFind_cons, if_neg haj, if_neg haj]
    · rw [if_neg hai, hFind_cons, hFind_cons]
      by_cases haj : a = j
      · rw [if_pos haj, if_pos haj]
      · rw [if_neg haj, if_neg haj, ih]

theorem hFind_hSet_self {h : List (Nat × Entry)} {i : Nat} {e0 : Entry}
    (e : Entry) (hf : hFind h i = some e0) : hFind (hSet h i e) i = some e := by
  induction h with
  | nil => simp [hFind] at hf
  | cons p t ih =>
    obtain ⟨a, b⟩ := p
    by_cases hai : a = i
    · subst hai
      simp [hSet, hFind]
    · rw [hFind_cons, if_neg hai] at hf
      simp only [hSet, if_neg hai, hFind_cons, if_neg hai]
      exact ih hf

theorem hFind_hSet_none {h : List (Nat × Entry)} {i : Nat} (e : Entry)
    (hf : hFind h i = none) : hSet h i e = h := by
  induction h with
  | nil => rfl
  | cons p t ih =>
    obtain ⟨a, b⟩ := p
    by_cases hai : a = i
    · subst hai; simp [hFind] at hf
    · rw [hFind_cons, if_neg hai] at hf
      simp only [hSet, if_neg hai]
      rw [ih hf]

/-! ### Size-sum lemmas -/

theorem sizeOfId_congr {h h' : List (Nat × Entry)} {i : Nat}
    (hf : hFind h' i = hFind h i) : sizeOfId h' i = sizeOfId h i := by
  unfold sizeOfId; rw [hf]

theorem sumSizes_congr {h h' : List (Nat × Entry)} {l : List Nat}
    (hf : ∀ i ∈ l, sizeOfId h' i = sizeOfId h i) : sumSizes h' l = sumSizes h l := by
  unfold sumSizes
  exact congrArg List.sum (List.map_congr_left hf)

theorem sumSizes_cons (h : List (Nat × Entry)) (i : Nat) (l : List Nat) :
    sumSizes h (i :: l) = sizeOfId h i + sumSizes h l := rfl

theorem sumSizes_perm (h : List (Nat × Entry)) {l l' : List Nat}
    (hp : l.Perm l') : sumSizes h l = sumSizes h l' :=
  (hp.map (sizeOfId h)).sum_eq

theorem sumSizes_erase {h : List (Nat × Entry)} {l : List Nat} {i : Nat}
    (hi : i ∈ l) : sumSizes h l = sizeOfId h i + sumSizes h (l.erase i) := by
  rw [sumSizes_perm h (List.perm_cons_erase hi), sumSizes_cons]

theorem sizeOfId_le_sumSizes {h : List (Nat × Entry)} {l : List Nat} {i : Nat}
    (hi : i ∈ l) : sizeOfId h i ≤ sumSizes h l := by
  rw [sumSizes_erase hi]; exact Nat.le_add_right _ _

/-! ### Wrapping-arithmetic lemmas -/

theorem wAdd_eq {a b : Nat} (hab : a + b < SIZE_T_MOD) : wAdd a b = a + b := by
  unfold wAdd; exact Nat.mod_eq_of_lt hab

theorem wSub_eq {a b : Nat} (hba : b ≤ a) (ha : a < SIZE_T_MOD) :
    wSub a b = a - b := by
  unfold wSub SIZE_T_MOD at *
  omega

theorem wAdd_wSub_cancel {a b : Nat} (ha : a < SIZE_T_MOD) (_hb : b < SIZE_T_MOD) :
    wAdd (wSub a b) b = a := by
  unfold wAdd wSub SIZE_T_MOD at *
  omega

/-- `MAX_CACHE_SIZE + MAX_OBJECT_SIZE` fits comfortably in a `size_t`. -/
theorem bounds_lt_mod : MAX_CACHE_SIZE + MAX_OBJECT_SIZE < SIZE_T_MOD := by
  unfold MAX_CACHE_SIZE MAX_OBJECT_SIZE SIZE_T_MOD
  norm_num

/-! ### Lemmas about `find` -/

theorem find_mem {c : Cache} {k : String} {i : Nat} (hf : find c k = some i) :
    i ∈ c.lru :=
  List.mem_of_find?_eq_some hf

theorem find_spec {c : Cache} {k : String} {i : Nat} (hf : find c k = some i) :
    ∃ e, hFind c.heap i = some e ∧ e.key = k := by
  have hm := List.find?_some hf
  unfold keyMatches at hm
  cases he : hFind c.heap i with
  | none => rw [he] at hm; simp at hm
  | some e =>
    rw [he] at hm
    exact ⟨e, rfl, by simpa using hm⟩

theorem find_eq_none_iff {c : Cache} {k : String} :
    find c k = none ↔ ∀ i ∈ c.lru, keyMatches c.heap k i = false := by
  unfold find
  rw [List.find?_eq_none]
  constructor
  · intro h i hi
    have := h i hi
    simpa using this
  · intro h i hi
    simp [h i hi]

theorem find_eq_none_key {c : Cache} {k : String} (hf : find c k = none)
    {i : Nat} (hi : i ∈ c.lru) {e : Entry} (he : hFind c.heap i = some e) :
    e.key ≠ k := by
  have h := (find_eq_none_iff.mp hf) i hi
  unfold keyMatches at h
  rw [he] at h
  simpa using h

/-- With pairwise-distinct keys, `find` locates exactly the member that
carries the key. -/
theorem find_unique {c : Cache} {k : String} {i : Nat} {e : Entry}
    (hk : c.lru.Pairwise (fun i j => keyOf c.heap i ≠ keyOf c.heap j))
    (hi : i ∈ c.lru) (he : hFind c.heap i = some e) (hek : e.key = k) :
    find c k = some i := by
  cases hf : find c k with
  | none =>
    exact absurd hek (find_eq_none_key hf hi he)
  | some j =>
    obtain ⟨e', he', hek'⟩ := find_spec hf
    have hj := find_mem hf
    by_cases hij : i = j
    · rw [hij]
    · have hne := List.Pairwise.forall (l := c.lru)
        (fun a b (hab : keyOf c.heap a ≠ keyOf c.heap b) => hab.symm) hk hi hj hij
      exfalso
      apply hne
      unfold keyOf
      rw [he, he']
      simp [hek, hek']

/-! ### `dataOf` frame lemmas -/

theorem dataOf_hSet_ref {h : List (Nat × Entry)} {i : Nat} {e : Entry}
    (he : hFind h i = some e) (r : Int) :
    ∀ j, dataOf (hSet h i { e with ref := r }) j = dataOf h j := by
  intro j
  unfold dataOf
  by_cases hij : j = i
  · subst hij
    rw [hFind_hSet_self _ he, he]
    simp
  · rw [hFind_hSet_ne _ _ hij]

/-- `cache_get` on a hit: the returned handle, and every field of the
resulting cache. -/
theorem cache_get_hit {c : Cache} {k : String} {i : Nat} {e : Entry}
    (hf : find c k = some i) (he : hFind c.heap i = some e) :
    cache_get c k =
      ({ heap := hSet c.heap i { e with ref := e.ref + 1 },
         nextId := c.nextId,
         lru := i :: c.lru.erase i,
         size := wAdd (wSub c.size e.size) e.size }, some i) := by
  unfold cache_get
  rw [hf]
  have hsz : sizeOfId c.heap i = e.size := by unfold sizeOfId; rw [he]; rfl
  simp only [insert_front, remove_entry, hsz]
  rw [he]

/-- `cache_get` on a miss leaves the cache untouched. -/
theorem cache_get_miss {c : Cache} {k : String} (hf : find c k = none) :
    cache_get c k = (c, none) := by
  unfold cache_get
  rw [hf]

/-- `cache_insert` of an already-present key: pure promotion, and nothing
else (for a cache whose `size` field is a faithful `size_t`). -/
theorem cache_insert_dup {c : Cache} {k : String} {i : Nat} {e : Entry}
    (hf : find c k = some i) (he : hFind c.heap i = some e)
    (hsz : ¬ MAX_OBJECT_SIZE < sz) (hc : c.size < SIZE_T_MOD)
    (hes : e.size < SIZE_T_MOD) (v : List Nat) :
    cache_insert c k v sz =
      ({ c with lru := i :: c.lru.erase i }, some i) := by
  unfold cache_insert
  rw [if_neg hsz, hf]
  have hs : sizeOfId c.heap i = e.size := by unfold sizeOfId; rw [he]; rfl
  simp only [insert_front, remove_entry, hs]
  rw [wAdd_wSub_cancel hc hes]

/-! ### Invariant preservation -/

theorem hSet_hSet (h : List (Nat × Entry)) (i : Nat) (a b : Entry) :
    hSet (hSet h i a) i b = hSet h i b := by
  induction h with
  | nil => rfl
  | cons p t ih =>
    obtain ⟨j, e0⟩ := p
    by_cases hji : j = i
    · simp [hSet, hji]
    · simp only [hSet, if_neg hji]
      rw [ih]

theorem lastMem {l : List Nat} {a : Nat} (h : l.getLast? = some a) : a ∈ l := by
  have ha : a ∈ l.getLast? := h ▸ rfl
  obtain ⟨hne, heq⟩ := List.mem_getLast?_eq_getLast ha
  exact heq ▸ List.getLast_mem hne

/-- Unlinking a member `t` and replacing its entry record by `e'` (same
payload, updated reference count, possibly destroyed) preserves the
structural invariant and subtracts `t`'s size from the held total. -/
theorem shape_remove_update {c : Cache} {hs : List Nat} (S : Shape c hs)
    {t : Nat} (ht : t ∈ c.lru) {e : Entry} (e' : Entry)
    (he : hFind c.heap t = some e)
    (hW : heldSize c < SIZE_T_MOD)
    (_hkey : e'.key = e.key) (hsize : e'.size = e.size)
    (hcase : (e'.freed = false ∧ e'.ref = (hs.count t : Int)) ∨
      (e'.freed = true ∧ e'.ref = 0 ∧ hs.count t = 0)) :
    Shape { heap := hSet c.heap t e', nextId := c.nextId,
            lru := c.lru.erase t, size := wSub c.size (sizeOfId c.heap t) } hs ∧
    wSub c.size (sizeOfId c.heap t) = heldSize c - sizeOfId c.heap t ∧
    sumSizes (hSet c.heap t e') (c.lru.erase t) =
      heldSize c - sizeOfId c.heap t := by
  have htlt : t < c.nextId := S.idlt t ht
  have hmem_erase : ∀ j, j ∈ c.lru.erase t ↔ j ≠ t ∧ j ∈ c.lru :=
    fun j => S.nd.mem_erase_iff
  have hfind' : ∀ j, j ≠ t → hFind (hSet c.heap t e') j = hFind c.heap j :=
    fun j hj => hFind_hSet_ne _ _ hj
  have hfind_t : hFind (hSet c.heap t e') t = some e' := hFind_hSet_self _ he
  have hx : sizeOfId c.heap t = e.size := by unfold sizeOfId; rw [he]; rfl
  have hxle : sizeOfId c.heap t ≤ heldSize c := sizeOfId_le_sumSizes ht
  have hsub : wSub c.size (sizeOfId c.heap t) = heldSize c - sizeOfId c.heap t := by
    rw [S.szeq]
    exact wSub_eq hxle hW
  have hsum : sumSizes (hSet c.heap t e') (c.lru.erase t) =
      heldSize c - sizeOfId c.heap t := by
    have h1 : sumSizes (hSet c.heap t e') (c.lru.erase t) =
        sumSizes c.heap (c.lru.erase t) := by
      refine sumSizes_congr fun j hj => ?_
      exact sizeOfId_congr (hfind' j ((hmem_erase j).mp hj).1)
    rw [h1]
    have h2 := sumSizes_erase (h := c.heap) ht
    unfold heldSize
    omega
  refine ⟨?_, hsub, hsum⟩
  constructor
  case nd => exact S.nd.erase t
  case idlt => exact fun j hj => S.idlt j (List.mem_of_mem_erase hj)
  case fresh =>
    intro i hi
    have hit : i ≠ t := fun hit => absurd (hit ▸ hi) (Nat.not_le.mpr htlt)
    rw [hfind' i hit]
    exact S.fresh i hi
  case live =>
    intro j hj
    obtain ⟨hjt, hjl⟩ := (hmem_erase j).mp hj
    obtain ⟨e0, he0, hf0⟩ := S.live j hjl
    exact ⟨e0, by rw [hfind' j hjt]; exact he0, hf0⟩
  case szle =>
    intro i e0 he0
    by_cases hit : i = t
    · subst hit
      rw [hfind_t] at he0
      cases he0
      rw [hsize]
      exact S.szle i e he
    · rw [hfind' i hit] at he0
      exact S.szle i e0 he0
  case keys =>
    have hkk : ∀ j, j ∈ c.lru.erase t →
        keyOf (hSet c.heap t e') j = keyOf c.heap j := by
      intro j hj
      unfold keyOf
      rw [hfind' j ((hmem_erase j).mp hj).1]
    refine List.Pairwise.imp_of_mem ?_ (S.keys.sublist (List.erase_sublist t c.lru))
    intro a b ha hb hab
    rw [hkk a ha, hkk b hb]
    exact hab
  case szeq =>
    show wSub c.size (sizeOfId c.heap t) = _
    unfold heldSize
    rw [hsub]
    exact hsum.symm
  case handles =>
    intro i hi
    obtain ⟨e0, he0, hf0⟩ := S.handles i hi
    by_cases hit : i = t
    · subst hit
      rcases hcase with ⟨hfr, _⟩ | ⟨_, _, hcnt⟩
      · exact ⟨e', hfind_t, hfr⟩
      · exact absurd hi (List.count_eq_zero.mp hcnt)
    · exact ⟨e0, by rw [hfind' i hit]; exact he0, hf0⟩
  case refs =>
    intro i e0 he0 hf0
    by_cases hit : i = t
    · subst hit
      rw [hfind_t] at he0
      cases he0
      rcases hcase with ⟨_, href⟩ | ⟨hfr, _, _⟩
      · have hnm : i ∉ c.lru.erase i := fun hmem => ((hmem_erase i).mp hmem).1 rfl
        rw [href]
        unfold ind
        rw [if_neg hnm]
        ring
      · rw [hfr] at hf0
        cases hf0
    · rw [hfind' i hit] at he0
      have := S.refs i e0 he0 hf0
      rw [this]
      unfold ind
      by_cases hil : i ∈ c.lru
      · rw [if_pos hil, if_pos ((hmem_erase i).mpr ⟨hit, hil⟩)]
      · rw [if_neg hil, if_neg (fun hmem => hil ((hmem_erase i).mp hmem).2)]
  case fref =>
    intro i e0 he0 hf0
    by_cases hit : i = t
    · subst hit
      rw [hfind_t] at he0
      cases he0
      rcases hcase with ⟨hfr, _⟩ | ⟨_, href, hcnt⟩
      · rw [hfr] at hf0
        cases hf0
      · exact ⟨href, fun hmem => ((hmem_erase i).mp hmem).1 rfl, hcnt⟩
    · rw [hfind' i hit] at he0
      obtain ⟨h1, h2, h3⟩ := S.fref i e0 he0 hf0
      exact ⟨h1, fun hmem => h2 ((hmem_erase i).mp hmem).2, h3⟩

/-- Closed form of `deref` on an id whose entry exists. -/
theorem deref_eq {c : Cache} {t : Nat} {e : Entry}
    (he : hFind c.heap t = some e) :
    deref c t =
      if e.ref - 1 = 0 then
        { c with heap := hSet c.heap t { e with ref := e.ref - 1, freed := true } }
      else
        { c with heap := hSet c.heap t { e with ref := e.ref - 1 } } := by
  unfold deref
  rw [he]
  dsimp only
  by_cases h0 : e.ref - 1 = 0
  · rw [if_pos h0, if_pos h0]
    unfold free_entry
    rw [show ({ c with heap := hSet c.heap t { e with ref := e.ref - 1 } } :
        Cache).heap = hSet c.heap t { e with ref := e.ref - 1 } from rfl]
    rw [hFind_hSet_self { e with ref := e.ref - 1 } he]
    show ({ heap := hSet (hSet c.heap t _) t _, nextId := _, lru := _, size := _ } :
      Cache) = _
    rw [hSet_hSet]
  · rw [if_neg h0, if_neg h0]

/-- Closed form of `evict_entry` on an id whose entry exists. -/
theorem evict_entry_eq {c : Cache} {t : Nat} {e : Entry}
    (he : hFind c.heap t = some e) :
    evict_entry c t =
      if e.ref - 1 = 0 then
        { heap := hSet c.heap t { e with ref := e.ref - 1, freed := true },
          nextId := c.nextId, lru := c.lru.erase t,
          size := wSub c.size (sizeOfId c.heap t) }
      else
        { heap := hSet c.heap t { e with ref := e.ref - 1 },
          nextId := c.nextId, lru := c.lru.erase t,
          size := wSub c.size (sizeOfId c.heap t) } := by
  unfold evict_entry
  rw [deref_eq (show hFind (remove_entry c t).heap t = some e from he)]
  by_cases h0 : e.ref - 1 = 0
  · rw [if_pos h0, if_pos h0]
    rfl
  · rw [if_neg h0, if_neg h0]
    rfl

/-- Evicting the tail preserves the structural invariant and decreases the
held total by the tail's size; ids other than the tail keep their bindings. -/
theorem shape_evict {c : Cache} {hs : List Nat} (S : Shape c hs)
    (hW : heldSize c < SIZE_T_MOD) {t : Nat} (ht : t ∈ c.lru) :
    Shape (evict_entry c t) hs ∧
    (evict_entry c t).lru = c.lru.erase t ∧
    (evict_entry c t).nextId = c.nextId ∧
    heldSize (evict_entry c t) = heldSize c - sizeOfId c.heap t ∧
    (∀ j, j ≠ t → hFind (evict_entry c t).heap j = hFind c.heap j) := by
  obtain ⟨e, he, hfr⟩ := S.live t ht
  have href : e.ref = ind c.lru t + (hs.count t : Int) := S.refs t e he hfr
  have hind : ind c.lru t = 1 := by unfold ind; rw [if_pos ht]
  rw [hind] at href
  rw [evict_entry_eq he]
  by_cases h0 : e.ref - 1 = 0
  · have hcnt : hs.count t = 0 := by omega
    rw [if_pos h0]
    obtain ⟨hS, hsub, hsum⟩ := shape_remove_update S ht
      { e with ref := e.ref - 1, freed := true } he hW rfl rfl
      (Or.inr ⟨rfl, h0, hcnt⟩)
    refine ⟨hS, rfl, rfl, ?_, fun j hj => hFind_hSet_ne _ _ hj⟩
    show sumSizes _ _ = _
    exact hsum
  · rw [if_neg h0]
    obtain ⟨hS, hsub, hsum⟩ := shape_remove_update S ht
      { e with ref := e.ref - 1 } he hW rfl rfl
      (Or.inl ⟨hfr, show e.ref - 1 = ((hs.count t : Int)) by omega⟩)
    refine ⟨hS, rfl, rfl, ?_, fun j hj => hFind_hSet_ne _ _ hj⟩
    show sumSizes _ _ = _
    exact hsum

/-- The eviction loop preserves the structural invariant; it only shrinks the
LRU list and the held total and never touches the binding of an id that is
still linked when it finishes. -/
theorem shape_evictLoop : ∀ (fuel : Nat) (c : Cache) (hs : List Nat),
    Shape c hs → heldSize c < SIZE_T_MOD →
    Shape (evictLoop fuel c) hs ∧
    heldSize (evictLoop fuel c) ≤ heldSize c ∧
    (evictLoop fuel c).nextId = c.nextId ∧
    (∀ j ∈ (evictLoop fuel c).lru, j ∈ c.lru ∧
      hFind (evictLoop fuel c).heap j = hFind c.heap j) := by
  intro fuel
  induction fuel with
  | zero => exact fun c hs S _ => ⟨S, le_refl _, rfl, fun j hj => ⟨hj, rfl⟩⟩
  | succ fuel ih =>
    intro c hs S hW
    simp only [evictLoop]
    by_cases hgt : MAX_CACHE_SIZE < c.size
    · rw [if_pos hgt]
      cases hlast : c.lru.getLast? with
      | none => exact ⟨S, le_refl _, rfl, fun j hj => ⟨hj, rfl⟩⟩
      | some t =>
        dsimp only
        have ht : t ∈ c.lru := lastMem hlast
        obtain ⟨S1, hlru1, hnext1, hsz1, hfr1⟩ := shape_evict S hW ht
        have hW1 : heldSize (evict_entry c t) < SIZE_T_MOD := by omega
        obtain ⟨S2, hle2, hnext2, hfr2⟩ := ih (evict_entry c t) hs S1 hW1
        refine ⟨S2, by omega, by rw [hnext2, hnext1], fun j hj => ?_⟩
        obtain ⟨hj1, hf1⟩ := hfr2 j hj
        have hjt : j ≠ t := by
          rw [hlru1] at hj1
          exact fun hjt => (S.nd.mem_erase_iff.mp (hjt ▸ hj1)).1 rfl
        refine ⟨?_, by rw [hf1, hfr1 j hjt]⟩
        rw [hlru1] at hj1
        exact List.mem_of_mem_erase hj1
    · rw [if_neg hgt]
      exact ⟨S, le_refl _, rfl, fun j hj => ⟨hj, rfl⟩⟩

/-- With fuel at least the list length, the eviction loop drives the held
total below the budget. -/
theorem evictLoop_bound : ∀ (fuel : Nat) (c : Cache) (hs : List Nat),
    Shape c hs → heldSize c < SIZE_T_MOD → c.lru.length ≤ fuel →
    heldSize (evictLoop fuel c) ≤ MAX_CACHE_SIZE := by
  intro fuel
  induction fuel with
  | zero =>
    intro c hs S _ hlen
    have : c.lru = [] := List.length_eq_zero.mp (Nat.le_zero.mp hlen)
    show heldSize c ≤ _
    unfold heldSize
    rw [this]
    exact Nat.zero_le _
  | succ fuel ih =>
    intro c hs S hW hlen
    simp only [evictLoop]
    by_cases hgt : MAX_CACHE_SIZE < c.size
    · rw [if_pos hgt]
      cases hlast : c.lru.getLast? with
      | none =>
        have : c.lru = [] := List.getLast?_eq_none_iff.mp hlast
        have h0 : heldSize c = 0 := by unfold heldSize; rw [this]; rfl
        rw [S.szeq, h0] at hgt
        exact absurd hgt (by simp)
      | some t =>
        have ht : t ∈ c.lru := lastMem hlast
        obtain ⟨S1, hlru1, _, hsz1, _⟩ := shape_evict S hW ht
        have hW1 : heldSize (evict_entry c t) < SIZE_T_MOD := by omega
        have hlen1 : (evict_entry c t).lru.length ≤ fuel := by
          rw [hlru1, List.length_erase_of_mem ht]
          omega
        exact ih (evict_entry c t) hs S1 hW1 hlen1
    · rw [if_neg hgt]
      rw [← S.szeq]
      omega

/-- Erasing the last member of a duplicate-free list with at least two
members keeps the head. -/
theorem erase_getLast_head {l : List Nat} {t : Nat} (nd : l.Nodup)
    (hlast : l.getLast? = some t) (hlong : 2 ≤ l.length) :
    (l.erase t).head? = l.head? := by
  cases l with
  | nil => cases hlast
  | cons a l2 =>
    cases l2 with
    | nil => simp at hlong
    | cons b rest =>
      have hlast2 : (b :: rest).getLast? = some t := by
        rw [List.getLast?_cons_cons] at hlast
        exact hlast
      have htbr : t ∈ b :: rest := lastMem hlast2
      have hna : a ∉ b :: rest := (List.nodup_cons.mp nd).1
      have hat : ¬ a = t := fun h => hna (h ▸ htbr)
      rw [List.erase_cons_tail (by simpa using hat)]
      rfl

/-- The eviction loop never unlinks the head entry: while it runs, the list
has at least two members (a single linked entry fits the budget), and the
victim is always the tail. -/
theorem evictLoop_head : ∀ (fuel : Nat) (c : Cache) (hs : List Nat),
    Shape c hs → heldSize c < SIZE_T_MOD →
    (evictLoop fuel c).lru.head? = c.lru.head? := by
  intro fuel
  induction fuel with
  | zero => exact fun c hs _ _ => rfl
  | succ fuel ih =>
    intro c hs S hW
    simp only [evictLoop]
    by_cases hgt : MAX_CACHE_SIZE < c.size
    · rw [if_pos hgt]
      cases hlast : c.lru.getLast? with
      | none => rfl
      | some t =>
        dsimp only
        have ht : t ∈ c.lru := lastMem hlast
        obtain ⟨S1, hlru1, _, hsz1, _⟩ := shape_evict S hW ht
        have hW1 : heldSize (evict_entry c t) < SIZE_T_MOD := by omega
        rw [ih (evict_entry c t) hs S1 hW1, hlru1]
        -- the list cannot be empty or a singleton while the loop runs
        have hlong : 2 ≤ c.lru.length := by
          rcases hlu : c.lru with _ | ⟨a, _ | ⟨b, rest⟩⟩
          · rw [hlu] at hlast; cases hlast
          · exfalso
            obtain ⟨e, he, _⟩ := S.live t ht
            have hesz : e.size ≤ MAX_OBJECT_SIZE := S.szle t e he
            have hszt : sizeOfId c.heap t = e.size := by
              unfold sizeOfId; rw [he]; rfl
            have hta : a = t := by rw [hlu] at hlast; simpa using hlast
            have hheld : heldSize c = sizeOfId c.heap t := by
              unfold heldSize sumSizes
              rw [hlu, hta]
              simp
            rw [S.szeq, hheld, hszt] at hgt
            have hco : MAX_OBJECT_SIZE ≤ MAX_CACHE_SIZE := by
              norm_num [MAX_OBJECT_SIZE, MAX_CACHE_SIZE]
            omega
          · simp [hlu]
        exact erase_getLast_head S.nd hlast hlong
    · rw [if_neg hgt]

theorem cache_insert_new_eq {c : Cache} {k : String} (hf : find c k = none)
    {sz : Nat} (hsz : ¬ MAX_OBJECT_SIZE < sz) (v : List Nat) :
    cache_insert c k v sz =
      (evictLoop (allocFront c k v sz).lru.length (allocFront c k v sz),
       some c.nextId) := by
  unfold cache_insert
  rw [if_neg hsz, hf]
  rfl

theorem allocFront_lru (c : Cache) (k : String) (v : List Nat) (sz : Nat) :
    (allocFront c k v sz).lru = c.nextId :: c.lru := rfl

theorem allocFront_find_new (c : Cache) (k : String) (v : List Nat) (sz : Nat) :
    hFind (allocFront c k v sz).heap c.nextId =
      some { key := k, val := v, size := sz, ref := 1, freed := false } := by
  show hFind ((c.nextId, _) :: c.heap) c.nextId = _
  rw [hFind_cons, if_pos rfl]

theorem allocFront_find_old (c : Cache) (k : String) (v : List Nat) (sz : Nat)
    {j : Nat} (hj : j ≠ c.nextId) :
    hFind (allocFront c k v sz).heap j = hFind c.heap j := by
  show hFind ((c.nextId, _) :: c.heap) j = _
  rw [hFind_cons, if_neg (fun h => hj h.symm)]

/-- The allocation phase preserves the structural invariant and grows the
held total by exactly the new object's size. -/
theorem shape_allocFront {c : Cache} {hs : List Nat} (S : Shape c hs)
    (hbound : heldSize c ≤ MAX_CACHE_SIZE)
    {k : String} (hf : find c k = none) (v : List Nat) {sz : Nat}
    (hsz : sz ≤ MAX_OBJECT_SIZE) :
    Shape (allocFront c k v sz) hs ∧
    heldSize (allocFront c k v sz) = heldSize c + sz := by
  have hfreshn : hFind c.heap c.nextId = none := S.fresh c.nextId (le_refl _)
  have hnew := allocFront_find_new c k v sz
  have hold := fun {j} (hj : j ≠ c.nextId) => allocFront_find_old c k v sz hj
  have hmemn : c.nextId ∉ c.lru := fun hmem =>
    absurd (S.idlt c.nextId hmem) (lt_irrefl _)
  have hltn : ∀ j ∈ c.lru, j ≠ c.nextId :=
    fun j hj => Nat.ne_of_lt (S.idlt j hj)
  have hsoz : sizeOfId (allocFront c k v sz).heap c.nextId = sz := by
    unfold sizeOfId; rw [hnew]; rfl
  have hszsame : ∀ j ∈ c.lru,
      sizeOfId (allocFront c k v sz).heap j = sizeOfId c.heap j :=
    fun j hj => sizeOfId_congr (hold (hltn j hj))
  have hheld : heldSize (allocFront c k v sz) = heldSize c + sz := by
    show sumSizes _ (c.nextId :: c.lru) = _
    rw [sumSizes_cons, hsoz, sumSizes_congr hszsame]
    exact Nat.add_comm _ _
  have hlives : ∀ j ∈ c.lru, ∃ e, hFind (allocFront c k v sz).heap j = some e ∧
      e.freed = false := by
    intro j hj
    obtain ⟨e0, he0, hf0⟩ := S.live j hj
    exact ⟨e0, by rw [hold (hltn j hj)]; exact he0, hf0⟩
  have hszW : c.size + sz < SIZE_T_MOD := by
    rw [S.szeq]
    have := bounds_lt_mod
    omega
  have hsize : (allocFront c k v sz).size = c.size + sz := by
    have h1 : (allocFront c k v sz).size =
        wAdd c.size (sizeOfId (allocFront c k v sz).heap c.nextId) := rfl
    rw [h1, hsoz]
    exact wAdd_eq hszW
  have hhid : ∀ i ∈ hs, i ≠ c.nextId := by
    intro i hi hin
    obtain ⟨e0, he0, _⟩ := S.handles i hi
    rw [hin, hfreshn] at he0
    cases he0
  refine ⟨?_, hheld⟩
  constructor
  case nd =>
    rw [allocFront_lru]
    exact List.nodup_cons.mpr ⟨hmemn, S.nd⟩
  case idlt =>
    rw [allocFront_lru]
    intro j hj
    rcases List.mem_cons.mp hj with h | h
    · rw [h]; exact Nat.lt_succ_self _
    · exact Nat.lt_succ_of_lt (S.idlt j h)
  case fresh =>
    intro j hj
    rw [show (allocFront c k v sz).nextId = c.nextId + 1 from rfl] at hj
    have hjn : j ≠ c.nextId := by omega
    rw [hold hjn]
    exact S.fresh j (by omega)
  case live =>
    rw [allocFront_lru]
    intro j hj
    rcases List.mem_cons.mp hj with h | h
    · exact ⟨_, h ▸ hnew, rfl⟩
    · exact hlives j h
  case szle =>
    intro j e0 he0
    by_cases hjn : j = c.nextId
    · rw [hjn, hnew] at he0
      cases he0
      exact hsz
    · rw [hold hjn] at he0
      exact S.szle j e0 he0
  case keys =>
    rw [allocFront_lru]
    refine List.Pairwise.cons ?_ ?_
    · intro j hj
      unfold keyOf
      rw [hnew, hold (hltn j hj)]
      obtain ⟨e0, he0, _⟩ := S.live j hj
      rw [he0]
      have : e0.key ≠ k := find_eq_none_key hf hj he0
      simpa using fun h => this h.symm
    · refine List.Pairwise.imp_of_mem ?_ S.keys
      intro a b ha hb hab
      unfold keyOf
      rw [hold (hltn a ha), hold (hltn b hb)]
      exact hab
  case szeq =>
    rw [hsize, hheld, S.szeq]
  case handles =>
    intro i hi
    obtain ⟨e0, he0, hf0⟩ := S.handles i hi
    exact ⟨e0, by rw [hold (hhid i hi)]; exact he0, hf0⟩
  case refs =>
    intro i e0 he0 hf0
    by_cases hin : i = c.nextId
    · subst hin
      rw [hnew] at he0
      cases he0
      have hcnt : hs.count c.nextId = 0 :=
        List.count_eq_zero.mpr (fun hmem => hhid c.nextId hmem rfl)
      rw [allocFront_lru]
      unfold ind
      rw [if_pos (List.mem_cons_self _ _), hcnt]
      simp
    · rw [hold hin] at he0
      have := S.refs i e0 he0 hf0
      rw [allocFront_lru]
      unfold ind at *
      by_cases hil : i ∈ c.lru
      · rw [if_pos (List.mem_cons_of_mem _ hil)]
        rw [if_pos hil] at this
        exact this
      · rw [if_neg (fun hmem => (List.mem_cons.mp hmem).elim hin hil)]
        rw [if_neg hil] at this
        exact this
  case fref =>
    intro i e0 he0 hf0
    by_cases hin : i = c.nextId
    · rw [hin, hnew] at he0
      cases he0
      cases hf0
    · rw [hold hin] at he0
      obtain ⟨h1, h2, h3⟩ := S.fref i e0 he0 hf0
      refine ⟨h1, ?_, h3⟩
      rw [allocFront_lru]
      exact fun hmem => (List.mem_cons.mp hmem).elim hin h2

/-- Updating an entry in place without changing its key leaves `keyOf`
unchanged everywhere. -/
theorem keyOf_hSet_same {h : List (Nat × Entry)} {i : Nat} {e : Entry}
    (e' : Entry) (he : hFind h i = some e) (hk : e'.key = e.key) :
    ∀ j, keyOf (hSet h i e') j = keyOf h j := by
  intro j
  by_cases hj : j = i
  · subst hj
    unfold keyOf
    rw [hFind_hSet_self _ he, he]
    simp [hk]
  · unfold keyOf
    rw [hFind_hSet_ne _ _ hj]

/-- Moving a member to the front of the LRU list is a permutation and
preserves the structural invariant. -/
theorem shape_promote {c : Cache} {hs : List Nat} (S : Shape c hs)
    {i : Nat} (hi : i ∈ c.lru) :
    Shape { c with lru := i :: c.lru.erase i } hs := by
  have hperm : c.lru.Perm (i :: c.lru.erase i) := List.perm_cons_erase hi
  have hmem : ∀ j, j ∈ i :: c.lru.erase i ↔ j ∈ c.lru :=
    fun j => (hperm.mem_iff).symm
  constructor
  case nd => exact (hperm.nodup_iff).mp S.nd
  case idlt => exact fun j hj => S.idlt j ((hmem j).mp hj)
  case fresh => exact S.fresh
  case live => exact fun j hj => S.live j ((hmem j).mp hj)
  case szle => exact S.szle
  case keys => exact (hperm.pairwise_iff fun h => h.symm).mp S.keys
  case szeq =>
    show c.size = sumSizes c.heap (i :: c.lru.erase i)
    rw [← sumSizes_perm c.heap hperm]
    exact S.szeq
  case handles => exact S.handles
  case refs =>
    intro j e0 he0 hf0
    rw [S.refs j e0 he0 hf0]
    unfold ind
    by_cases hjl : j ∈ c.lru
    · rw [if_pos hjl, if_pos ((hmem j).mpr hjl)]
    · rw [if_neg hjl, if_neg (fun h => hjl ((hmem j).mp h))]
  case fref =>
    intro j e0 he0 hf0
    obtain ⟨h1, h2, h3⟩ := S.fref j e0 he0 hf0
    exact ⟨h1, fun h => h2 ((hmem j).mp h), h3⟩

/-- `cache_insert` preserves the invariant (all three paths: rejection,
promotion of an existing key, allocation plus eviction loop). -/
theorem wf_insert {s : Sys} (W : WF s) (k : String) (v : List Nat) (sz : Nat) :
    WF { s with cache := (cache_insert s.cache k v sz).1 } := by
  obtain ⟨S, hbound⟩ := W
  by_cases hsz : MAX_OBJECT_SIZE < sz
  · have : cache_insert s.cache k v sz = (s.cache, none) := by
      unfold cache_insert
      rw [if_pos hsz]
    rw [this]
    exact ⟨S, hbound⟩
  · cases hfind : find s.cache k with
    | some i =>
      obtain ⟨e, he, _⟩ := find_spec hfind
      have hi : i ∈ s.cache.lru := find_mem hfind
      have hc : s.cache.size < SIZE_T_MOD := by
        rw [S.szeq]
        have := bounds_lt_mod
        omega
      have hes : e.size < SIZE_T_MOD := by
        have := S.szle i e he
        have := bounds_lt_mod
        omega
      rw [cache_insert_dup hfind he hsz hc hes v]
      refine ⟨shape_promote S hi, ?_⟩
      show sumSizes s.cache.heap (i :: s.cache.lru.erase i) ≤ _
      rw [← sumSizes_perm s.cache.heap (List.perm_cons_erase hi)]
      exact hbound
    | none =>
      rw [cache_insert_new_eq hfind hsz v]
      have hszle : sz ≤ MAX_OBJECT_SIZE := Nat.le_of_not_lt hsz
      obtain ⟨S1, hheld1⟩ := shape_allocFront S hbound hfind v hszle
      have hW1 : heldSize (allocFront s.cache k v sz) < SIZE_T_MOD := by
        have := bounds_lt_mod
        omega
      obtain ⟨S2, _, _, _⟩ :=
        shape_evictLoop (allocFront s.cache k v sz).lru.length _ s.live S1 hW1
      exact ⟨S2, evictLoop_bound _ _ _ S1 hW1 (le_refl _)⟩

/-- `cache_get` preserves the invariant, the returned handle joining the
outstanding multiset. -/
theorem wf_get {s : Sys} (W : WF s) (k : String) :
    WF { cache := (cache_get s.cache k).1,
         live := match (cache_get s.cache k).2 with
                 | some i => i :: s.live
                 | none => s.live } := by
  obtain ⟨S, hbound⟩ := W
  cases hfind : find s.cache k with
  | none =>
    rw [cache_get_miss hfind]
    exact ⟨S, hbound⟩
  | some i =>
    obtain ⟨e, he, _hkey⟩ := find_spec hfind
    have hi : i ∈ s.cache.lru := find_mem hfind
    have hfr : e.freed = false := by
      obtain ⟨e0, he0, hf0⟩ := S.live i hi
      rw [he] at he0
      cases he0
      exact hf0
    rw [cache_get_hit hfind he]
    have hperm : s.cache.lru.Perm (i :: s.cache.lru.erase i) :=
      List.perm_cons_erase hi
    have hmem : ∀ j, j ∈ i :: s.cache.lru.erase i ↔ j ∈ s.cache.lru :=
      fun j => (hperm.mem_iff).symm
    have hfind_i : hFind (hSet s.cache.heap i { e with ref := e.ref + 1 }) i =
        some { e with ref := e.ref + 1 } := hFind_hSet_self _ he
    have hfind_o : ∀ j, j ≠ i →
        hFind (hSet s.cache.heap i { e with ref := e.ref + 1 }) j =
          hFind s.cache.heap j := fun j hj => hFind_hSet_ne _ _ hj
    have hilt : i < s.cache.nextId := S.idlt i hi
    have hszsame : ∀ j, sizeOfId (hSet s.cache.heap i { e with ref := e.ref + 1 }) j =
        sizeOfId s.cache.heap j := by
      intro j
      by_cases hj : j = i
      · subst hj
        unfold sizeOfId
        rw [hfind_i, he]
        rfl
      · exact sizeOfId_congr (hfind_o j hj)
    have hkeysame : ∀ j, keyOf (hSet s.cache.heap i { e with ref := e.ref + 1 }) j =
        keyOf s.cache.heap j := by
      intro j
      by_cases hj : j = i
      · subst hj
        unfold keyOf
        rw [hfind_i, he]
        rfl
      · unfold keyOf
        rw [hfind_o j hj]
    have hsum : sumSizes (hSet s.cache.heap i { e with ref := e.ref + 1 })
        (i :: s.cache.lru.erase i) = heldSize s.cache := by
      rw [sumSizes_congr fun j _ => hszsame j, ← sumSizes_perm s.cache.heap hperm]
      rfl
    have hc : s.cache.size < SIZE_T_MOD := by
      rw [S.szeq]
      have := bounds_lt_mod
      omega
    have hes : e.size < SIZE_T_MOD := by
      have := S.szle i e he
      have := bounds_lt_mod
      omega
    constructor
    · constructor
      case nd => exact (hperm.nodup_iff).mp S.nd
      case idlt => exact fun j hj => S.idlt j ((hmem j).mp hj)
      case fresh =>
        intro j hj
        have hji : j ≠ i := fun h => absurd (h ▸ hj) (Nat.not_le.mpr hilt)
        rw [hfind_o j hji]
        exact S.fresh j hj
      case live =>
        intro j hj
        by_cases hji : j = i
        · subst hji
          exact ⟨_, hfind_i, hfr⟩
        · obtain ⟨e0, he0, hf0⟩ := S.live j ((hmem j).mp hj)
          exact ⟨e0, by rw [hfind_o j hji]; exact he0, hf0⟩
      case szle =>
        intro j e0 he0
        by_cases hji : j = i
        · subst hji
          rw [hfind_i] at he0
          cases he0
          exact S.szle j e he
        · rw [hfind_o j hji] at he0
          exact S.szle j e0 he0
      case keys =>
        refine List.Pairwise.imp_of_mem ?_
          ((hperm.pairwise_iff fun h => h.symm).mp S.keys)
        intro a b _ _ hab
        rw [hkeysame a, hkeysame b]
        exact hab
      case szeq =>
        show wAdd (wSub s.cache.size e.size) e.size = _
        rw [wAdd_wSub_cancel hc hes, S.szeq]
        exact hsum.symm
      case handles =>
        intro j hj
        rcases List.mem_cons.mp hj with hji | hj0
        · subst hji
          exact ⟨_, hfind_i, hfr⟩
        · obtain ⟨e0, he0, hf0⟩ := S.handles j hj0
          by_cases hji : j = i
          · subst hji
            exact ⟨_, hfind_i, hfr⟩
          · exact ⟨e0, by rw [hfind_o j hji]; exact he0, hf0⟩
      case refs =>
        intro j e0 he0 hf0
        by_cases hji : j = i
        · subst hji
          rw [hfind_i] at he0
          cases he0
          have := S.refs j e he hfr
          unfold ind at *
          rw [if_pos hi] at this
          rw [if_pos (List.mem_cons_self _ _), List.count_cons_self]
          show e.ref + 1 = _
          rw [this]
          push_cast
          ring
        · rw [hfind_o j hji] at he0
          have := S.refs j e0 he0 hf0
          rw [this]
          unfold ind
          have hcnt : (i :: s.live).count j = s.live.count j :=
            List.count_cons_of_ne hji s.live
          rw [hcnt]
          by_cases hjl : j ∈ s.cache.lru
          · rw [if_pos hjl, if_pos ((hmem j).mpr hjl)]
          · rw [if_neg hjl, if_neg (fun h => hjl ((hmem j).mp h))]
      case fref =>
        intro j e0 he0 hf0
        by_cases hji : j = i
        · subst hji
          rw [hfind_i] at he0
          cases he0
          rw [hfr] at hf0
          cases hf0
        · rw [hfind_o j hji] at he0
          obtain ⟨h1, h2, h3⟩ := S.fref j e0 he0 hf0
          refine ⟨h1, fun h => h2 ((hmem j).mp h), ?_⟩
          rw [List.count_cons_of_ne hji]
          exact h3
    · show sumSizes _ (i :: s.cache.lru.erase i) ≤ _
      rw [hsum]
      exact hbound

/-- `cache_entry_release` of an outstanding handle preserves the invariant,
the handle leaving the outstanding multiset. -/
theorem wf_release {s : Sys} (W : WF s) {i : Nat} (hi : i ∈ s.live) :
    WF { cache := cache_entry_release s.cache i, live := s.live.erase i } := by
  obtain ⟨S, hbound⟩ := W
  obtain ⟨e, he, hfr⟩ := S.handles i hi
  have href : e.ref = ind s.cache.lru i + (s.live.count i : Int) :=
    S.refs i e he hfr
  have hcpos : 1 ≤ s.live.count i := List.count_pos_iff.mpr hi
  have hilt : i < s.cache.nextId := by
    by_contra hle
    rw [S.fresh i (Nat.le_of_not_lt hle)] at he
    cases he
  have hcself : (s.live.erase i).count i = s.live.count i - 1 :=
    List.count_erase_self i s.live
  have hcne : ∀ j, j ≠ i → (s.live.erase i).count j = s.live.count j :=
    fun j hj => List.count_erase_of_ne hj s.live
  have hmem_sub : ∀ j, j ∈ s.live.erase i → j ∈ s.live :=
    fun j => List.mem_of_mem_erase
  show WF { cache := deref s.cache i, live := s.live.erase i }
  rw [deref_eq he]
  by_cases h0 : e.ref - 1 = 0
  case pos =>
    rw [if_pos h0]
    -- the cache's own reference is gone and this was the last handle
    have hind0 : ind s.cache.lru i = 0 ∧ s.live.count i = 1 := by
      unfold ind at href ⊢
      by_cases hil : i ∈ s.cache.lru
      · rw [if_pos hil] at href
        omega
      · rw [if_neg hil] at href ⊢
        omega
    obtain ⟨hind, hone⟩ := hind0
    have hnil : i ∉ s.cache.lru := by
      intro hmem
      unfold ind at hind
      rw [if_pos hmem] at hind
      cases hind
    have hfind_i : hFind (hSet s.cache.heap i
        { e with ref := e.ref - 1, freed := true }) i =
        some { e with ref := e.ref - 1, freed := true } := hFind_hSet_self _ he
    have hfind_o : ∀ j, j ≠ i → hFind (hSet s.cache.heap i
        { e with ref := e.ref - 1, freed := true }) j = hFind s.cache.heap j :=
      fun j hj => hFind_hSet_ne _ _ hj
    have hszsame : ∀ j, sizeOfId (hSet s.cache.heap i
        { e with ref := e.ref - 1, freed := true }) j = sizeOfId s.cache.heap j := by
      intro j
      by_cases hj : j = i
      · subst hj
        unfold sizeOfId
        rw [hfind_i, he]
        rfl
      · exact sizeOfId_congr (hfind_o j hj)
    have hlni : ∀ j ∈ s.cache.lru, j ≠ i := fun j hj h => hnil (h ▸ hj)
    constructor
    · constructor
      case nd => exact S.nd
      case idlt => exact S.idlt
      case fresh =>
        intro j hj
        have hji : j ≠ i := fun h => absurd (h ▸ hj) (Nat.not_le.mpr hilt)
        rw [hfind_o j hji]
        exact S.fresh j hj
      case live =>
        intro j hj
        obtain ⟨e0, he0, hf0⟩ := S.live j hj
        exact ⟨e0, by rw [hfind_o j (hlni j hj)]; exact he0, hf0⟩
      case szle =>
        intro j e0 he0
        by_cases hji : j = i
        · subst hji
          rw [hfind_i] at he0
          cases he0
          exact S.szle j e he
        · rw [hfind_o j hji] at he0
          exact S.szle j e0 he0
      case keys =>
        refine List.Pairwise.imp_of_mem ?_ S.keys
        intro a b ha hb hab
        unfold keyOf
        rw [hfind_o a (hlni a ha), hfind_o b (hlni b hb)]
        exact hab
      case szeq =>
        show s.cache.size = _
        rw [S.szeq]
        exact (sumSizes_congr fun j _ => hszsame j).symm
      case handles =>
        intro j hj
        have hji : j ≠ i := by
          intro h
          subst h
          have : (s.live.erase j).count j = 0 := by omega
          exact absurd hj (List.count_eq_zero.mp this)
        obtain ⟨e0, he0, hf0⟩ := S.handles j (hmem_sub j hj)
        exact ⟨e0, by rw [hfind_o j hji]; exact he0, hf0⟩
      case refs =>
        intro j e0 he0 hf0
        by_cases hji : j = i
        · subst hji
          rw [hfind_i] at he0
          cases he0
          cases hf0
        · rw [hfind_o j hji] at he0
          rw [S.refs j e0 he0 hf0, hcne j hji]
      case fref =>
        intro j e0 he0 hf0
        by_cases hji : j = i
        · subst hji
          rw [hfind_i] at he0
          cases he0
          refine ⟨h0, hnil, ?_⟩
          show (s.live.erase j).count j = 0
          omega
        · rw [hfind_o j hji] at he0
          obtain ⟨h1, h2, h3⟩ := S.fref j e0 he0 hf0
          exact ⟨h1, h2, by rw [hcne j hji]; exact h3⟩
    · show sumSizes (hSet s.cache.heap i { e with ref := e.ref - 1, freed := true })
        s.cache.lru ≤ MAX_CACHE_SIZE
      rw [sumSizes_congr fun j _ => hszsame j]
      exact hbound
  case neg =>
    rw [if_neg h0]
    have hfind_i : hFind (hSet s.cache.heap i { e with ref := e.ref - 1 }) i =
        some { e with ref := e.ref - 1 } := hFind_hSet_self _ he
    have hfind_o : ∀ j, j ≠ i → hFind (hSet s.cache.heap i
        { e with ref := e.ref - 1 }) j = hFind s.cache.heap j :=
      fun j hj => hFind_hSet_ne _ _ hj
    have hszsame : ∀ j, sizeOfId (hSet s.cache.heap i
        { e with ref := e.ref - 1 }) j = sizeOfId s.cache.heap j := by
      intro j
      by_cases hj : j = i
      · subst hj
        unfold sizeOfId
        rw [hfind_i, he]
        rfl
      · exact sizeOfId_congr (hfind_o j hj)
    constructor
    · constructor
      case nd => exact S.nd
      case idlt => exact S.idlt
      case fresh =>
        intro j hj
        have hji : j ≠ i := fun h => absurd (h ▸ hj) (Nat.not_le.mpr hilt)
        rw [hfind_o j hji]
        exact S.fresh j hj
      case live =>
        intro j hj
        by_cases hji : j = i
        · subst hji
          exact ⟨_, hfind_i, hfr⟩
        · obtain ⟨e0, he0, hf0⟩ := S.live j hj
          exact ⟨e0, by rw [hfind_o j hji]; exact he0, hf0⟩
      case szle =>
        intro j e0 he0
        by_cases hji : j = i
        · subst hji
          rw [hfind_i] at he0
          cases he0
          exact S.szle j e he
        · rw [hfind_o j hji] at he0
          exact S.szle j e0 he0
      case keys =>
        refine List.Pairwise.imp_of_mem ?_ S.keys
        intro a b _ _ hab
        show keyOf (hSet s.cache.heap i { e with ref := e.ref - 1 }) a ≠
          keyOf (hSet s.cache.heap i { e with ref := e.ref - 1 }) b
        rw [keyOf_hSet_same { e with ref := e.ref - 1 } he rfl a,
          keyOf_hSet_same { e with ref := e.ref - 1 } he rfl b]
        exact hab
      case szeq =>
        show s.cache.size = _
        rw [S.szeq]
        exact (sumSizes_congr fun j _ => hszsame j).symm
      case handles =>
        intro j hj
        by_cases hji : j = i
        · subst hji
          exact ⟨_, hfind_i, hfr⟩
        · obtain ⟨e0, he0, hf0⟩ := S.handles j (hmem_sub j hj)
          exact ⟨e0, by rw [hfind_o j hji]; exact he0, hf0⟩
      case refs =>
        intro j e0 he0 hf0
        by_cases hji : j = i
        · subst hji
          rw [hfind_i] at he0
          cases he0
          show e.ref - 1 = ind s.cache.lru j + _
          rw [hcself]
          have hcast : ((s.live.count j - 1 : Nat) : Int) =
              (s.live.count j : Int) - 1 := by
            omega
          rw [hcast, href]
          ring
        · rw [hfind_o j hji] at he0
          rw [S.refs j e0 he0 hf0, hcne j hji]
      case fref =>
        intro j e0 he0 hf0
        by_cases hji : j = i
        · subst hji
          rw [hfind_i] at he0
          cases he0
          rw [hfr] at hf0
          cases hf0
        · rw [hfind_o j hji] at he0
          obtain ⟨h1, h2, h3⟩ := S.fref j e0 he0 hf0
          exact ⟨h1, h2, by rw [hcne j hji]; exact h3⟩
    · show sumSizes (hSet s.cache.heap i { e with ref := e.ref - 1 })
        s.cache.lru ≤ MAX_CACHE_SIZE
      rw [sumSizes_congr fun j _ => hszsame j]
      exact hbound

/-- Every successful step preserves the invariant. -/
theorem wf_step {s s' : Sys} (W : WF s) {op : SOp}
    (h : sysStep s op = some s') : WF s' := by
  cases op with
  | insert k v sz =>
    cases h
    exact wf_insert W k v sz
  | get k =>
    cases h
    exact wf_get W k
  | release i =>
    unfold sysStep at h
    dsimp only at h
    by_cases hi : i ∈ s.live
    · rw [if_pos hi] at h
      cases h
      exact wf_release W hi
    · rw [if_neg hi] at h
      cases h

/-- Every successful run preserves the invariant. -/
theorem wf_run : ∀ (ops : List SOp) {s s' : Sys}, WF s →
    sysRun s ops = some s' → WF s' := by
  intro ops
  induction ops with
  | nil =>
    intro s s' W h
    cases h
    exact W
  | cons op rest ih =>
    intro s s' W h
    unfold sysRun at h
    cases hstep : sysStep s op with
    | none => rw [hstep] at h; cases h
    | some s1 =>
      rw [hstep] at h
      exact ih (wf_step W hstep) h

/-- The freshly created cache satisfies the invariant. -/
theorem wf_init : WF sysInit := by
  constructor
  · constructor
    case nd => exact List.nodup_nil
    case idlt => intro i hi; cases hi
    case fresh => intro i _; rfl
    case live => intro i hi; cases hi
    case szle => intro i e he; simp [hFind] at he
    case keys => exact List.Pairwise.nil
    case szeq => rfl
    case handles => intro i hi; cases hi
    case refs => intro i e he _; simp [hFind] at he
    case fref => intro i e he _; simp [hFind] at he
  · exact Nat.zero_le _

/-- Updating an entry in place without changing its payload leaves `dataOf`
unchanged everywhere. -/
theorem dataOf_hSet_same {h : List (Nat × Entry)} {i : Nat} {e : Entry}
    (e' : Entry) (he : hFind h i = some e) (hk : e'.key = e.key)
    (hv : e'.val = e.val) (hsz : e'.size = e.size) :
    ∀ j, dataOf (hSet h i e') j = dataOf h j := by
  intro j
  by_cases hj : j = i
  · subst hj
    unfold dataOf
    rw [hFind_hSet_self _ he, he]
    simp [hk, hv, hsz]
  · unfold dataOf
    rw [hFind_hSet_ne _ _ hj]

theorem headMem {l : List Nat} {a : Nat} (h : l.head? = some a) : a ∈ l := by
  cases l with
  | nil => cases h
  | cons b t =>
    cases h
    exact List.mem_cons_self _ _

/-- A single step never changes the payload of an entry that stays linked
across it. -/
theorem step_frame {s s' : Sys} (W : WF s) {op : SOp}
    (h : sysStep s op = some s') {i : Nat}
    (hi : i ∈ s.cache.lru) (hi' : i ∈ s'.cache.lru) :
    dataOf s'.cache.heap i = dataOf s.cache.heap i := by
  obtain ⟨S, hbound⟩ := W
  cases op with
  | insert k v sz =>
    cases h
    by_cases hsz : MAX_OBJECT_SIZE < sz
    · have : cache_insert s.cache k v sz = (s.cache, none) := by
        unfold cache_insert
        rw [if_pos hsz]
      rw [this]
    · cases hfind : find s.cache k with
      | some j =>
        obtain ⟨e, he, _⟩ := find_spec hfind
        have hc : s.cache.size < SIZE_T_MOD := by
          rw [S.szeq]
          have := bounds_lt_mod
          omega
        have hes : e.size < SIZE_T_MOD := by
          have := S.szle j e he
          have := bounds_lt_mod
          omega
        rw [cache_insert_dup hfind he hsz hc hes v]
      | none =>
        have hszle : sz ≤ MAX_OBJECT_SIZE := Nat.le_of_not_lt hsz
        obtain ⟨S1, hheld1⟩ := shape_allocFront S hbound hfind v hszle
        have hW1 : heldSize (allocFront s.cache k v sz) < SIZE_T_MOD := by
          have := bounds_lt_mod
          omega
        obtain ⟨_, _, _, hframe⟩ :=
          shape_evictLoop (allocFront s.cache k v sz).lru.length _ s.live S1 hW1
        have hieq : ({ s with cache := (cache_insert s.cache k v sz).1 } :
            Sys).cache.heap = (cache_insert s.cache k v sz).1.heap := rfl
        rw [cache_insert_new_eq hfind hsz v] at hi' ⊢
        obtain ⟨_, hpres⟩ := hframe i hi'
        have hin : i ≠ s.cache.nextId := Nat.ne_of_lt (S.idlt i hi)
        show dataOf _ i = _
        unfold dataOf
        rw [hpres, allocFront_find_old s.cache k v sz hin]
  | get k =>
    cases h
    cases hfind : find s.cache k with
    | none => rw [cache_get_miss hfind]
    | some j =>
      obtain ⟨e, he, _⟩ := find_spec hfind
      rw [cache_get_hit hfind he]
      exact dataOf_hSet_same { e with ref := e.ref + 1 } he rfl rfl rfl i
  | release j =>
    unfold sysStep at h
    dsimp only at h
    by_cases hj : j ∈ s.live
    · rw [if_pos hj] at h
      cases h
      obtain ⟨e, he, _⟩ := S.handles j hj
      show dataOf (cache_entry_release s.cache j).heap i = _
      show dataOf (deref s.cache j).heap i = _
      rw [deref_eq he]
      by_cases h0 : e.ref - 1 = 0
      · rw [if_pos h0]
        exact dataOf_hSet_same { e with ref := e.ref - 1, freed := true }
          he rfl rfl rfl i
      · rw [if_neg h0]
        exact dataOf_hSet_same { e with ref := e.ref - 1 }
          he rfl rfl rfl i
    · rw [if_neg hj] at h
      cases h

/-- Along a run during which an entry stays linked, its payload never
changes. -/
theorem run_frame : ∀ (ops : List SOp) {s s2 : Sys} {i : Nat}, WF s →
    HeldAlong s i ops → sysRun s ops = some s2 →
    i ∈ s2.cache.lru ∧ dataOf s2.cache.heap i = dataOf s.cache.heap i := by
  intro ops
  induction ops with
  | nil =>
    intro s s2 i W HA h
    cases h
    exact ⟨HA [] [] s rfl rfl, rfl⟩
  | cons op rest ih =>
    intro s s2 i W HA h
    unfold sysRun at h
    cases hstep : sysStep s op with
    | none => rw [hstep] at h; cases h
    | some s1 =>
      rw [hstep] at h
      have hi0 : i ∈ s.cache.lru := HA [] (op :: rest) s rfl rfl
      have hi1 : i ∈ s1.cache.lru := by
        refine HA [op] rest s1 rfl ?_
        show (match sysStep s op with
              | some sx => sysRun sx ([] : List SOp)
              | none => none) = some s1
        rw [hstep]
        rfl
      have HA1 : HeldAlong s1 i rest := by
        intro p r s' hpr hrun
        refine HA (op :: p) r s' (by rw [hpr]; rfl) ?_
        show (match sysStep s op with
              | some sx => sysRun sx p
              | none => none) = some s'
        rw [hstep]
        exact hrun
      obtain ⟨h2, hd2⟩ := ih (wf_step W hstep) HA1 h
      exact ⟨h2, by rw [hd2, step_frame W hstep hi0 hi1]⟩

/-- `cache_insert` of a fresh key returns the newly allocated entry, which
survives the insert's own eviction loop at the head with the inserted
payload. -/
theorem insert_new_spec {s : Sys} (W : WF s) {k : String}
    (hf : find s.cache k = none) (v : List Nat) {sz : Nat}
    (hsz : sz ≤ MAX_OBJECT_SIZE) :
    (cache_insert s.cache k v sz).2 = some s.cache.nextId ∧
    s.cache.nextId ∈ (cache_insert s.cache k v sz).1.lru ∧
    dataOf (cache_insert s.cache k v sz).1.heap s.cache.nextId =
      some (k, v, sz) := by
  obtain ⟨S, hbound⟩ := W
  have hsz' : ¬ MAX_OBJECT_SIZE < sz := Nat.not_lt.mpr hsz
  rw [cache_insert_new_eq hf hsz' v]
  obtain ⟨S1, hheld1⟩ := shape_allocFront S hbound hf v hsz
  have hW1 : heldSize (allocFront s.cache k v sz) < SIZE_T_MOD := by
    have := bounds_lt_mod
    omega
  have hhead := evictLoop_head (allocFront s.cache k v sz).lru.length _ s.live S1 hW1
  rw [allocFront_lru] at hhead
  have hmem : s.cache.nextId ∈
      (evictLoop (allocFront s.cache k v sz).lru.length
        (allocFront s.cache k v sz)).lru :=
    headMem hhead
  obtain ⟨_, _, _, hframe⟩ :=
    shape_evictLoop (allocFront s.cache k v sz).lru.length _ s.live S1 hW1
  obtain ⟨_, hpres⟩ := hframe _ hmem
  refine ⟨rfl, hmem, ?_⟩
  show dataOf _ s.cache.nextId = _
  unfold dataOf
  rw [hpres, allocFront_find_new]
  rfl

/-! ### Forwarder lemmas -/

theorem forwardLoop_nil (fuel : Nat) (w b : List Nat) (t : Nat) :
    forwardLoop fuel [] w b t = (w, b, t) := by
  cases fuel <;> rfl

/-- A stream that fits the buffer is consumed in a single read iteration,
which leaves the whole stream in the accumulation buffer. -/
theorem forwardLoop_small {stream : List Nat} (hne : stream ≠ [])
    (hle : stream.length ≤ MAX_OBJECT_SIZE) (fuel : Nat) (w b : List Nat)
    (t : Nat) :
    forwardLoop (fuel + 1) stream w b t =
      (w ++ stream, stream, wAdd t stream.length) := by
  have htake : stream.take MAX_OBJECT_SIZE = stream := List.take_of_length_le hle
  have hdrop : stream.drop MAX_OBJECT_SIZE = [] := List.drop_eq_nil_of_le hle
  have hlen0 : ¬ stream.length = 0 := fun h => hne (List.length_eq_zero.mp h)
  simp only [forwardLoop, htake, hdrop]
  rw [if_neg hlen0, forwardLoop_nil]

/-- Bytes written and total accumulated by the loop, for any fuel covering
the stream. -/
theorem forwardLoop_spec : ∀ (fuel : Nat) (stream w b : List Nat) (t : Nat),
    stream.length ≤ fuel → t < SIZE_T_MOD →
    (forwardLoop fuel stream w b t).1 = w ++ stream ∧
    (forwardLoop fuel stream w b t).2.2 =
      (t + stream.length) % SIZE_T_MOD := by
  intro fuel
  induction fuel with
  | zero =>
    intro stream w b t hlen htW
    have hnil : stream = [] := List.length_eq_zero.mp (Nat.le_zero.mp hlen)
    subst hnil
    rw [forwardLoop_nil]
    exact ⟨(List.append_nil w).symm, by simpa using (Nat.mod_eq_of_lt htW).symm⟩
  | succ fuel ih =>
    intro stream w b t hlen htW
    by_cases hnil : stream = []
    · subst hnil
      rw [forwardLoop_nil]
      exact ⟨(List.append_nil w).symm, by simpa using (Nat.mod_eq_of_lt htW).symm⟩
    · have hlen0 : ¬ (stream.take MAX_OBJECT_SIZE).length = 0 := by
        rw [List.length_take]
        have h1 : 0 < stream.length :=
          Nat.pos_of_ne_zero (fun h => hnil (List.length_eq_zero.mp h))
        have h2 : 0 < MAX_OBJECT_SIZE := by norm_num [MAX_OBJECT_SIZE]
        omega
      simp only [forwardLoop]
      rw [if_neg hlen0]
      have hdlen : (stream.drop MAX_OBJECT_SIZE).length ≤ fuel := by
        rw [List.length_drop]
        have h2 : 0 < MAX_OBJECT_SIZE := by norm_num [MAX_OBJECT_SIZE]
        omega
      have hwW : wAdd t (stream.take MAX_OBJECT_SIZE).length < SIZE_T_MOD := by
        unfold wAdd SIZE_T_MOD
        exact Nat.mod_lt _ (by norm_num)
      obtain ⟨h1, h2⟩ := ih (stream.drop MAX_OBJECT_SIZE)
        (w ++ stream.take MAX_OBJECT_SIZE) (stream.take MAX_OBJECT_SIZE)
        (wAdd t (stream.take MAX_OBJECT_SIZE).length) hdlen hwW
      refine ⟨?_, ?_⟩
      · rw [h1, List.append_assoc, List.take_append_drop]
      · rw [h2]
        unfold wAdd
        rw [Nat.mod_add_mod]
        have hsum : (stream.take MAX_OBJECT_SIZE).length +
            (stream.drop MAX_OBJECT_SIZE).length = stream.length := by
          rw [List.length_take, List.length_drop]
          omega
        rw [← hsum, Nat.add_assoc]

/-! ### Rewriter lemmas -/

theorem overridden_filter_nil (hs : List (String × String)) {nm : String}
    (hnm : overridden nm = true) :
    ((hs.filter (fun h => !overridden h.1)).filter (fun h => h.1 == nm)) = [] := by
  rw [List.filter_filter]
  refine List.filter_eq_nil_iff.mpr ?_
  intro h _
  intro hcontra
  rw [Bool.and_eq_true] at hcontra
  obtain ⟨heq, hno⟩ := hcontra
  have hnmq : h.1 = nm := by
    rwa [beq_iff_eq] at heq
  simp [hnmq, hnm] at hno

theorem host_not_overridden {h : String × String}
    (hh : (h.1 == "Host") = true) : overridden h.1 = false := by
  have : h.1 = "Host" := by rwa [beq_iff_eq] at hh
  rw [this]
  rfl

/-! ### Remaining glue lemmas -/

theorem sysRun_append : ∀ (a b : List SOp) (s : Sys),
    sysRun s (a ++ b) = (sysRun s a).bind (fun s' => sysRun s' b) := by
  intro a
  induction a with
  | nil => intro b s; rfl
  | cons op rest ih =>
    intro b s
    show (match sysStep s op with
          | some s1 => sysRun s1 (rest ++ b)
          | none => none) =
      ((match sysStep s op with
        | some s1 => sysRun s1 rest
        | none => none).bind fun s' => sysRun s' b)
    cases sysStep s op with
    | none => rfl
    | some s1 =>
      show sysRun s1 (rest ++ b) = (sysRun s1 rest).bind fun s' => sysRun s' b
      exact ih b s1

theorem hFind_mem : ∀ {h : List (Nat × Entry)} {i : Nat} {e : Entry},
    hFind h i = some e → (i, e) ∈ h := by
  intro h
  induction h with
  | nil => intro i e he; cases he
  | cons p t ih =>
    intro i e he
    obtain ⟨j, e0⟩ := p
    rw [hFind_cons] at he
    by_cases hji : j = i
    · rw [if_pos hji] at he
      cases he
      subst hji
      exact List.mem_cons_self _ _
    · rw [if_neg hji] at he
      exact List.mem_cons_of_mem _ (ih he)

theorem dataOf_eq_some {h : List (Nat × Entry)} {i : Nat}
    {k : String} {v : List Nat} {sz : Nat}
    (hd : dataOf h i = some (k, v, sz)) :
    ∃ e, hFind h i = some e ∧ e.key = k ∧ e.val = v ∧ e.size = sz := by
  unfold dataOf at hd
  cases he : hFind h i with
  | none => rw [he] at hd; cases hd
  | some e =>
    rw [he] at hd
    refine ⟨e, rfl, ?_, ?_, ?_⟩
    all_goals
      cases hd
      rfl

/-! ### Claim theorems -/

/-- C1: for every sequence of cache operations starting from `cache_create`
in which every insert has size at most `MAX_OBJECT_SIZE`, after each
operation the sum of the sizes of the entries held by the cache's LRU list
is at most `MAX_CACHE_SIZE`, and the cache's `size` field equals that sum.
(Insert of a new key establishes this by linking at the MRU end and then
evicting the LRU tail while the total exceeds the bound, which is the
definition of `cache_insert` and `evictLoop`.) -/
theorem C1_total_size_bounded (ops : List SOp) (s : Sys)
    (_hins : ∀ op ∈ ops, insOK op = true)
    (hrun : sysRun sysInit ops = some s) :
    heldSize s.cache ≤ MAX_CACHE_SIZE ∧ s.cache.size = heldSize s.cache := by
  obtain ⟨S, hbound⟩ := wf_run ops wf_init hrun
  exact ⟨hbound, S.szeq⟩

/-- C1 witness: the bound holds after a concrete run of inserts, a get and a
release. -/
theorem C1_total_size_bounded_witness :
    heldSize ((sysRun sysInit c1ops).getD sysInit).cache ≤ MAX_CACHE_SIZE :=
  (C1_total_size_bounded c1ops ((sysRun sysInit c1ops).getD sysInit)
    (by decide) (by rfl)).1

/-- C2: in every valid run (each handle obtained from `cache_get` released
at most once), a destroyed entry has reference count exactly zero, an entry
with a positive reference count is never destroyed, and an entry with an
outstanding unreleased handle is never destroyed — destruction happens only
at the decrement that reaches zero. -/
theorem C2_no_destroy_while_referenced (ops : List SOp) (s : Sys)
    (hrun : sysRun sysInit ops = some s) :
    (∀ i e, hFind s.cache.heap i = some e → e.freed = true → e.ref = 0) ∧
    (∀ i e, hFind s.cache.heap i = some e → 0 < e.ref → e.freed = false) ∧
    (∀ i, i ∈ s.live →
      ∃ e, hFind s.cache.heap i = some e ∧ e.freed = false) := by
  obtain ⟨S, _⟩ := wf_run ops wf_init hrun
  refine ⟨fun i e he hf => (S.fref i e he hf).1, ?_, S.handles⟩
  intro i e he href
  cases hf : e.freed with
  | false => rfl
  | true =>
    have := (S.fref i e he hf).1
    omega

/-- C2 witness: after a concrete insert and get, the handed-out entry is
live and not destroyed. -/
theorem C2_no_destroy_while_referenced_witness :
    ∃ e, hFind ((sysRun sysInit c2ops).getD sysInit).cache.heap 0 = some e ∧
      e.freed = false :=
  (C2_no_destroy_while_referenced c2ops ((sysRun sysInit c2ops).getD sysInit)
    (by rfl)).2.2 0 (by decide)

/-- C4: an oversized insert returns absent and leaves the cache bit-for-bit
unchanged; `cache_get` either returns absent (changing nothing) or returns a
handle to an entry present in the LRU list, and in either case no entry's
key, value bytes or size change. -/
theorem C4_insert_reject_get_total (c : Cache) (k : String) (v : List Nat)
    (sz : Nat) :
    (MAX_OBJECT_SIZE < sz → cache_insert c k v sz = (c, none)) ∧
    ((cache_get c k).2 = none → (cache_get c k).1 = c) ∧
    (∀ i, (cache_get c k).2 = some i →
      i ∈ c.lru ∧ ∀ j, dataOf (cache_get c k).1.heap j = dataOf c.heap j) := by
  refine ⟨?_, ?_, ?_⟩
  · intro hsz
    unfold cache_insert
    rw [if_pos hsz]
  · intro hnone
    cases hfind : find c k with
    | none => rw [cache_get_miss hfind]
    | some i =>
      obtain ⟨e, he, _⟩ := find_spec hfind
      rw [cache_get_hit hfind he] at hnone
      cases hnone
  · intro i hsome
    cases hfind : find c k with
    | none =>
      rw [cache_get_miss hfind] at hsome
      cases hsome
    | some j =>
      obtain ⟨e, he, _⟩ := find_spec hfind
      rw [cache_get_hit hfind he] at hsome ⊢
      cases hsome
      exact ⟨find_mem hfind,
        dataOf_hSet_same { e with ref := e.ref + 1 } he rfl rfl rfl⟩

/-- C4 witness: a 200-KiB insert into a concrete two-entry cache is rejected
without any change, and a hit on that cache modifies no entry's bytes. -/
theorem C4_insert_reject_get_total_witness :
    cache_insert (scenRun 102400 2) "k0" [9] 204800 = (scenRun 102400 2, none) ∧
    (0 ∈ (scenRun 102400 2).lru ∧
      ∀ j, dataOf (cache_get (scenRun 102400 2) "k0").1.heap j =
        dataOf (scenRun 102400 2).heap j) :=
  ⟨(C4_insert_reject_get_total (scenRun 102400 2) "k0" [9] 204800).1 (by decide),
   (C4_insert_reject_get_total (scenRun 102400 2) "k0" [9] 204800).2.2 0
     (by decide)⟩

/-- C5: on an error-free exchange the forwarder writes to the client exactly
the origin's bytes in order until EOF, and calls `cache_insert` with the
accumulation buffer precisely when the total is in `(0, MAX_OBJECT_SIZE]` —
which, with full reads except at EOF, is exactly when the entire response
fit in a single read iteration — and then the buffer holds the whole
response. -/
theorem C5_forward_bytes_and_cache_decision (stream : List Nat)
    (hW : stream.length < SIZE_T_MOD) :
    (forward_http_response stream).1 = stream ∧
    (forward_http_response stream).2 =
      (if 0 < stream.length ∧ stream.length ≤ MAX_OBJECT_SIZE
       then some (stream, stream.length) else none) := by
  unfold forward_http_response
  dsimp only
  by_cases hnil : stream = []
  · subst hnil
    rw [forwardLoop_nil]
    exact ⟨rfl, rfl⟩
  · have hpos : 0 < stream.length :=
      Nat.pos_of_ne_zero (fun h => hnil (List.length_eq_zero.mp h))
    have htot : wAdd 0 stream.length = stream.length := by
      unfold wAdd
      rw [Nat.zero_add]
      exact Nat.mod_eq_of_lt hW
    by_cases hle : stream.length ≤ MAX_OBJECT_SIZE
    · obtain ⟨n, hn⟩ : ∃ n, stream.length = n + 1 :=
        ⟨stream.length - 1, by omega⟩
      have hsm := forwardLoop_small hnil hle n [] [] 0
      rw [← hn] at hsm
      rw [List.nil_append, htot] at hsm
      rw [hsm]
      refine ⟨rfl, ?_⟩
      rw [if_pos ⟨hle, hpos⟩, if_pos ⟨hpos, hle⟩]
    · obtain ⟨h1, h2⟩ := forwardLoop_spec stream.length stream [] [] 0
        (le_refl _) (by unfold SIZE_T_MOD; norm_num)
      rw [Nat.zero_add, Nat.mod_eq_of_lt hW] at h2
      refine ⟨by rw [h1]; exact List.nil_append stream, ?_⟩
      rw [h2, if_neg (fun hc => hle hc.1), if_neg (fun hc => hle hc.2)]

/-- C5 witness: a three-byte response is forwarded verbatim and cached whole. -/
theorem C5_forward_bytes_and_cache_decision_witness :
    (forward_http_response [1, 2, 3]).1 = [1, 2, 3] ∧
    (forward_http_response [1, 2, 3]).2 = some ([1, 2, 3], 3) := by
  obtain ⟨h1, h2⟩ := C5_forward_bytes_and_cache_decision [1, 2, 3] (by decide)
  refine ⟨h1, ?_⟩
  rw [h2]
  rfl

/-- C9 counterexample: the scenario's ten 200-KiB objects all exceed
`MAX_OBJECT_SIZE`, so every insert is rejected: after k5's insert the total
is 0 bytes, not 1 MiB, the whole run leaves the cache in its created state,
and `get(k6)` returns absent rather than k6's bytes. -/
theorem C9_lru_scenario_counterexample :
    heldSize (scenRun SCEN_SIZE 6) = 0 ∧
    scenRun SCEN_SIZE 10 = cache_create ∧
    (cache_get (scenRun SCEN_SIZE 10) "k6").2 = none := by
  refine ⟨by decide, by decide, by decide⟩

/-- C9 amended: ten 200-KiB inserts cache nothing (each is rejected since
204800 > MAX_OBJECT_SIZE); with eleven 100-KiB objects k0..k10 instead,
after k9's insert the total is 1,024,000 bytes and nothing has been evicted,
after k10's insert k0 has been evicted, `get(k0)` returns absent and
`get(k10)` returns an entry holding exactly the bytes and size inserted
for k10. -/
theorem C9_lru_scenario_amended :
    scenRun SCEN_SIZE 10 = cache_create ∧
    heldSize (scenRun 102400 10) = 1024000 ∧
    (scenRun 102400 10).lru.length = 10 ∧
    heldSize (scenRun 102400 11) = 1024000 ∧
    (cache_get (scenRun 102400 11) "k0").2 = none ∧
    (cache_get (scenRun 102400 11) "k10").2 = some 10 ∧
    dataOf (cache_get (scenRun 102400 11) "k10").1.heap 10 =
      some ("k10", [10], 102400) := by
  refine ⟨by decide, by decide, by decide, by decide, by decide, by decide,
    by decide⟩

/-- C3: in every reachable cache state, inserting an already-present key
only promotes the existing entry to the MRU head — its bytes, size and the
rest of the cache state are untouched; and after inserting a fresh key
`(k, v, sz)`, any later `cache_get k` with no intervening eviction of that
entry returns the very same entry, whose bytes still equal `v` and whose
size still equals `sz`, regardless of intervening inserts of `k` with
different values. -/
theorem C3_duplicate_insert_preserves_contents :
    (∀ (ops : List SOp) (s : Sys) (k : String) (i : Nat) (v' : List Nat)
       (sz' : Nat),
      sysRun sysInit ops = some s →
      find s.cache k = some i →
      sz' ≤ MAX_OBJECT_SIZE →
      cache_insert s.cache k v' sz' =
        ({ s.cache with lru := i :: s.cache.lru.erase i }, some i)) ∧
    (∀ (ops0 : List SOp) (s0 : Sys) (k : String) (v : List Nat) (sz : Nat)
       (ops1 : List SOp) (s2 : Sys),
      sysRun sysInit ops0 = some s0 →
      find s0.cache k = none →
      sz ≤ MAX_OBJECT_SIZE →
      sysRun sysInit (ops0 ++ SOp.insert k v sz :: ops1) = some s2 →
      (∀ p rest s', ops1 = p ++ rest →
        sysRun sysInit (ops0 ++ SOp.insert k v sz :: p) = some s' →
        s0.cache.nextId ∈ s'.cache.lru) →
      (cache_get s2.cache k).2 = some s0.cache.nextId ∧
      ∃ e, hFind (cache_get s2.cache k).1.heap s0.cache.nextId = some e ∧
        e.val = v ∧ e.size = sz) := by
  constructor
  · intro ops s k i v' sz' hrun hfind hsz
    obtain ⟨S, hbound⟩ := wf_run ops wf_init hrun
    obtain ⟨e, he, _⟩ := find_spec hfind
    have hc : s.cache.size < SIZE_T_MOD := by
      rw [S.szeq]
      have := bounds_lt_mod
      omega
    have hes : e.size < SIZE_T_MOD := by
      have := S.szle i e he
      have := bounds_lt_mod
      omega
    exact cache_insert_dup hfind he (Nat.not_lt.mpr hsz) hc hes v'
  · intro ops0 s0 k v sz ops1 s2 h0 hfind hsz hfull hheld
    have W0 := wf_run ops0 wf_init h0
    -- the insert step
    have hstep : sysStep s0 (SOp.insert k v sz) =
        some { s0 with cache := (cache_insert s0.cache k v sz).1 } := rfl
    have hrun1 : sysRun { s0 with cache := (cache_insert s0.cache k v sz).1 }
        ops1 = some s2 := by
      rw [sysRun_append, h0] at hfull
      exact hfull
    obtain ⟨hret, hmem1, hdata1⟩ := insert_new_spec W0 hfind v hsz
    have W1 : WF { s0 with cache := (cache_insert s0.cache k v sz).1 } :=
      wf_step W0 hstep
    have HA : HeldAlong { s0 with cache := (cache_insert s0.cache k v sz).1 }
        s0.cache.nextId ops1 := by
      intro p rest s' hpr hrunp
      refine hheld p rest s' hpr ?_
      rw [sysRun_append, h0]
      exact hrunp
    obtain ⟨hmem2, hdata2⟩ := run_frame ops1 W1 HA hrun1
    rw [hdata1] at hdata2
    obtain ⟨e, he, hek, hev, hes⟩ := dataOf_eq_some hdata2
    obtain ⟨S2, _⟩ := wf_run ops1 W1 hrun1
    have hfind2 : find s2.cache k = some s0.cache.nextId :=
      find_unique S2.keys hmem2 he hek
    rw [cache_get_hit hfind2 he]
    refine ⟨rfl, { e with ref := e.ref + 1 }, hFind_hSet_self _ he, hev, hes⟩

/-- C3 witness: a fresh insert followed immediately by a get returns the
inserted entry with its bytes and size. -/
theorem C3_duplicate_insert_preserves_contents_witness :
    (cache_get ((sysRun sysInit
      ([] ++ SOp.insert "k" [7] 3 :: [])).getD sysInit).cache "k").2 =
      some 0 := by
  have h := C3_duplicate_insert_preserves_contents.2 [] sysInit "k" [7] 3 []
    ((sysRun sysInit ([] ++ SOp.insert "k" [7] 3 :: [])).getD sysInit)
    rfl rfl (by decide) (by rfl) ?_
  · exact h.1
  · intro p rest s' hpr hrunp
    have hp : p = [] := List.append_eq_nil.mp hpr.symm |>.1
    subst hp
    cases hrunp
    decide

/-- C6: at a 9000-character URI the rewritten request exceeds the fixed
`MAXLINE` buffer `serve` provides, yet `construct_new_request` still reports
success — the source has no failure path (its overflow checks are an
unimplemented TODO), so the worker does not abort and the no-partial-request
guarantee cannot be upheld. -/
theorem C6_overflow_reported_as_success :
    (construct_new_request c6info []).1 = true ∧
    MAXLINE < (construct_new_request c6info []).2.length := by
  refine ⟨rfl, ?_⟩
  have hu : c6uri.length = 9000 := by
    show (List.replicate 9000 'a').asString.length = _
    rw [List.length_asString, List.length_replicate]
  show MAXLINE < ("GET " ++ c6info.uri ++ " HTTP/1.0\x0d\n"
    ++ String.join ((emittedHeaders c6info []).map headerLine) ++ "\x0d\n").length
  rw [String.length_append, String.length_append, String.length_append,
    String.length_append]
  have h4 : ("GET " : String).length = 4 := rfl
  have hg : (" HTTP/1.0\x0d\n" : String).length = 11 := rfl
  have huri : c6info.uri = c6uri := rfl
  rw [h4, hg, huri, hu]
  show MAXLINE < 4 + 9000 + 11 + _ + _
  unfold MAXLINE
  omega

/-- C7 counterexample: on a request whose very first line fails to parse,
`parse_http_request` returns false with no error reply at all — no
`400 Bad Request` is sent, contradicting the claim. -/
theorem C7_first_line_failure_counterexample :
    parse_http_request c7lines c7parser = (false, []) := by decide

/-- C7 amended: the worker replies `501 Not Implemented` when the method
retrieves as something other than GET, `501 Not Implemented` when the scheme
retrieves as something other than http, `400 Bad Request` when the version
retrieves as something other than 1.0 or 1.1, and `400 Bad Request` when the
retrieval of any required field (version, method, scheme, uri, host, port or
path) fails after at least one line parsed — but a request whose first line
fails to parse (so no characters were successfully parsed) is dropped with
no reply at all. -/
theorem C7_error_replies_amended (lines : List (String × LineResult))
    (p : ParserOut) :
    (parseLoopN lines 0 = 0 → parse_http_request lines p = (false, [])) ∧
    (parseLoopN lines 0 ≠ 0 → p.version = none →
      parse_http_request lines p = (false, [("400", "Bad Request")])) ∧
    (∀ v, parseLoopN lines 0 ≠ 0 → p.version = some v →
      ¬(v = "1.0" ∨ v = "1.1") →
      parse_http_request lines p = (false, [("400", "Bad Request")])) ∧
    (∀ v m, parseLoopN lines 0 ≠ 0 → p.version = some v →
      (v = "1.0" ∨ v = "1.1") → p.method = some m → m ≠ "GET" →
      parse_http_request lines p = (false, [("501", "Not Implemented")])) ∧
    (∀ v sc, parseLoopN lines 0 ≠ 0 → p.version = some v →
      (v = "1.0" ∨ v = "1.1") → p.method = some "GET" → p.scheme = some sc →
      sc ≠ "http" →
      parse_http_request lines p = (false, [("501", "Not Implemented")])) ∧
    (∀ v, parseLoopN lines 0 ≠ 0 → p.version = some v →
      (v = "1.0" ∨ v = "1.1") → p.method = none →
      parse_http_request lines p = (false, [("400", "Bad Request")])) ∧
    (∀ v, parseLoopN lines 0 ≠ 0 → p.version = some v →
      (v = "1.0" ∨ v = "1.1") → p.method = some "GET" → p.scheme = none →
      parse_http_request lines p = (false, [("400", "Bad Request")])) ∧
    (∀ v, parseLoopN lines 0 ≠ 0 → p.version = some v →
      (v = "1.0" ∨ v = "1.1") → p.method = some "GET" →
      p.scheme = some "http" → p.uri = none →
      parse_http_request lines p = (false, [("400", "Bad Request")])) ∧
    (∀ v u, parseLoopN lines 0 ≠ 0 → p.version = some v →
      (v = "1.0" ∨ v = "1.1") → p.method = some "GET" →
      p.scheme = some "http" → p.uri = some u → p.host = none →
      parse_http_request lines p = (false, [("400", "Bad Request")])) ∧
    (∀ v u h, parseLoopN lines 0 ≠ 0 → p.version = some v →
      (v = "1.0" ∨ v = "1.1") → p.method = some "GET" →
      p.scheme = some "http" → p.uri = some u → p.host = some h →
      p.port = none →
      parse_http_request lines p = (false, [("400", "Bad Request")])) ∧
    (∀ v u h pt, parseLoopN lines 0 ≠ 0 → p.version = some v →
      (v = "1.0" ∨ v = "1.1") → p.method = some "GET" →
      p.scheme = some "http" → p.uri = some u → p.host = some h →
      p.port = some pt → p.path = none →
      parse_http_request lines p = (false, [("400", "Bad Request")])) := by
  refine ⟨?_, ?_, ?_, ?_, ?_, ?_, ?_, ?_, ?_, ?_, ?_⟩
  · intro hn
    unfold parse_http_request
    rw [if_pos hn]
  · intro hn hv
    unfold parse_http_request
    rw [if_neg hn, hv]
  · intro v hn hv hbad
    unfold parse_http_request
    rw [if_neg hn, hv]
    dsimp only
    rw [if_neg hbad]
  · intro v m hn hv hok hm hmg
    unfold parse_http_request
    rw [if_neg hn, hv]
    dsimp only
    rw [if_pos hok, hm]
    dsimp only
    rw [if_neg hmg]
  · intro v sc hn hv hok hm hsc hsch
    unfold parse_http_request
    rw [if_neg hn, hv]
    dsimp only
    rw [if_pos hok, hm]
    dsimp only
    rw [if_pos rfl, hsc]
    dsimp only
    rw [if_neg hsch]
  · intro v hn hv hok hm
    unfold parse_http_request
    rw [if_neg hn, hv]
    dsimp only
    rw [if_pos hok, hm]
  · intro v hn hv hok hm hsc
    unfold parse_http_request
    rw [if_neg hn, hv]
    dsimp only
    rw [if_pos hok, hm]
    dsimp only
    rw [if_pos rfl, hsc]
  · intro v hn hv hok hm hsc hu
    unfold parse_http_request
    rw [if_neg hn, hv]
    dsimp only
    rw [if_pos hok, hm]
    dsimp only
    rw [if_pos rfl, hsc]
    dsimp only
    rw [if_pos rfl, hu]
  · intro v u hn hv hok hm hsc hu hh
    unfold parse_http_request
    rw [if_neg hn, hv]
    dsimp only
    rw [if_pos hok, hm]
    dsimp only
    rw [if_pos rfl, hsc]
    dsimp only
    rw [if_pos rfl, hu]
    dsimp only
    rw [hh]
  · intro v u h hn hv hok hm hsc hu hh hpr
    unfold parse_http_request
    rw [if_neg hn, hv]
    dsimp only
    rw [if_pos hok, hm]
    dsimp only
    rw [if_pos rfl, hsc]
    dsimp only
    rw [if_pos rfl, hu]
    dsimp only
    rw [hh]
    dsimp only
    rw [hpr]
  · intro v u h pt hn hv hok hm hsc hu hh hpr hpa
    unfold parse_http_request
    rw [if_neg hn, hv]
    dsimp only
    rw [if_pos hok, hm]
    dsimp only
    rw [if_pos rfl, hsc]
    dsimp only
    rw [if_pos rfl, hu]
    dsimp only
    rw [hh]
    dsimp only
    rw [hpr]
    dsimp only
    rw [hpa]

/-- C7 witness: a POST request draws a 501, an HTTP/2.0 request a 400, and a
GET request whose uri cannot be retrieved a 400. -/
theorem C7_error_replies_amended_witness :
    parse_http_request [("POST u HTTP/1.0", LineResult.request)]
      { version := some "1.0", method := some "POST", scheme := some "http",
        uri := some "u", host := some "h", port := some "80",
        path := some "/" } = (false, [("501", "Not Implemented")]) ∧
    parse_http_request [("GET u HTTP/2.0", LineResult.request)]
      { version := some "2.0", method := some "GET", scheme := some "http",
        uri := some "u", host := some "h", port := some "80",
        path := some "/" } = (false, [("400", "Bad Request")]) ∧
    parse_http_request [("GET u HTTP/1.1", LineResult.request)]
      { version := some "1.1", method := some "GET", scheme := some "http",
        uri := none, host := some "h", port := some "80",
        path := some "/" } = (false, [("400", "Bad Request")]) :=
  ⟨(C7_error_replies_amended _ _).2.2.2.1 "1.0" "POST" (by decide) rfl
     (Or.inl rfl) rfl (by decide),
   (C7_error_replies_amended _ _).2.2.1 "2.0" (by decide) rfl (by decide),
   (C7_error_replies_amended _ _).2.2.2.2.2.2.2.1 "1.1" (by decide) rfl
     (Or.inr rfl) rfl rfl rfl⟩

/-- C8: whatever Connection, Proxy-Connection or User-Agent headers the
client sends (matched case-sensitively), the rewriter emits each of the
three exactly once with its fixed override value; the emitted request line
carries HTTP/1.0 whatever version the client used; and a `Host` header is
synthesized from the parsed host and port exactly when the client supplied
no `Host` header. -/
theorem C8_rewriter_overrides (info : HttpInfo) (hs : List (String × String))
    (v' : String) :
    (emittedHeaders info hs).filter (fun h => h.1 == "Connection") =
      [("Connection", "close")] ∧
    (emittedHeaders info hs).filter (fun h => h.1 == "Proxy-Connection") =
      [("Proxy-Connection", "close")] ∧
    (emittedHeaders info hs).filter (fun h => h.1 == "User-Agent") =
      [("User-Agent", header_user_agent)] ∧
    construct_new_request { info with version := v' } hs =
      construct_new_request info hs ∧
    (∃ rest, (construct_new_request info hs).2 =
      "GET " ++ info.uri ++ " HTTP/1.0\x0d\n" ++ rest) ∧
    (emittedHeaders info hs).filter (fun h => h.1 == "Host") =
      (if hostFound hs then hs.filter (fun h => h.1 == "Host")
       else [("Host", info.host ++ ":" ++ info.port)]) := by
  have hhostpart : ∀ nm : String, ("Host" == nm) = false →
      (if hostFound hs then ([] : List (String × String))
       else [("Host", info.host ++ ":" ++ info.port)]).filter
        (fun h => h.1 == nm) = [] := by
    intro nm hnm
    by_cases hh : hostFound hs
    · rw [if_pos hh]
      rfl
    · rw [if_neg hh]
      show List.filter _ [("Host", info.host ++ ":" ++ info.port)] = []
      simp [List.filter, hnm]
  have hfilt : ∀ nm : String, overridden nm = true →
      (emittedHeaders info hs).filter (fun h => h.1 == nm) =
      ((if hostFound hs then ([] : List (String × String))
        else [("Host", info.host ++ ":" ++ info.port)]).filter
          (fun h => h.1 == nm))
        ++ (([("Connection", "close"), ("Proxy-Connection", "close"),
            ("User-Agent", header_user_agent)] :
            List (String × String)).filter (fun h => h.1 == nm)) := by
    intro nm hnm
    unfold emittedHeaders
    rw [List.filter_append, List.filter_append, overridden_filter_nil hs hnm]
    rfl
  refine ⟨?_, ?_, ?_, rfl,
    ⟨String.join ((emittedHeaders info hs).map headerLine) ++ "\x0d\n",
      String.append_assoc _ _ _⟩, ?_⟩
  · rw [hfilt "Connection" rfl, hhostpart "Connection" rfl]
    rfl
  · rw [hfilt "Proxy-Connection" rfl, hhostpart "Proxy-Connection" rfl]
    rfl
  · rw [hfilt "User-Agent" rfl, hhostpart "User-Agent" rfl]
    rfl
  · unfold emittedHeaders
    rw [List.filter_append, List.filter_append]
    have hpass : (hs.filter (fun h => !overridden h.1)).filter
        (fun h => h.1 == "Host") = hs.filter (fun h => h.1 == "Host") := by
      rw [List.filter_filter]
      refine List.filter_congr ?_
      intro h _
      cases hbeq : (h.1 == "Host") with
      | false => simp [hbeq]
      | true => simp [hbeq, host_not_overridden hbeq]
    rw [hpass]
    by_cases hh : hostFound hs
    · rw [if_pos hh, if_pos hh,
        show List.filter (fun h => h.1 == "Host")
          ([] : List (String × String)) = [] from rfl,
        show List.filter (fun h => h.1 == "Host")
          ([("Connection", "close"), ("Proxy-Connection", "close"),
            ("User-Agent", header_user_agent)] : List (String × String)) = []
          from rfl]
      simp
    · rw [if_neg hh, if_neg hh]
      have hnone : hs.filter (fun h => h.1 == "Host") = [] := by
        refine List.filter_eq_nil_iff.mpr ?_
        intro h hmem hcontra
        unfold hostFound at hh
        exact hh (List.any_eq_true.mpr ⟨h, hmem, hcontra⟩)
      rw [hnone]
      rfl

/-- C10: `cache_get` on a miss changes nothing at all; on a hit it moves the
hit entry to the head (a permutation of the list), increments only that
entry's reference count, and leaves the total size, the id supply and every
entry's key, bytes and size unchanged. -/
theorem C10_get_frame_conditions (c : Cache) (k : String)
    (hcs : c.size < SIZE_T_MOD)
    (hszs : ∀ p ∈ c.heap, p.2.size < SIZE_T_MOD) :
    ((cache_get c k).2 = none → (cache_get c k).1 = c) ∧
    (∀ i, (cache_get c k).2 = some i →
      i ∈ c.lru ∧
      (cache_get c k).1.lru = i :: c.lru.erase i ∧
      (cache_get c k).1.lru.Perm c.lru ∧
      (cache_get c k).1.size = c.size ∧
      (cache_get c k).1.nextId = c.nextId ∧
      (∀ j, dataOf (cache_get c k).1.heap j = dataOf c.heap j) ∧
      (∃ e, hFind c.heap i = some e ∧
        hFind (cache_get c k).1.heap i = some { e with ref := e.ref + 1 })) := by
  constructor
  · intro hnone
    cases hfind : find c k with
    | none => rw [cache_get_miss hfind]
    | some i =>
      obtain ⟨e, he, _⟩ := find_spec hfind
      rw [cache_get_hit hfind he] at hnone
      cases hnone
  · intro i hsome
    cases hfind : find c k with
    | none =>
      rw [cache_get_miss hfind] at hsome
      cases hsome
    | some j =>
      obtain ⟨e, he, _⟩ := find_spec hfind
      rw [cache_get_hit hfind he] at hsome ⊢
      cases hsome
      have hj := find_mem hfind
      have hes : e.size < SIZE_T_MOD := hszs (i, e) (hFind_mem he)
      refine ⟨hj, rfl, (List.perm_cons_erase hj).symm, ?_, rfl,
        dataOf_hSet_same { e with ref := e.ref + 1 } he rfl rfl rfl,
        e, he, hFind_hSet_self _ he⟩
      show wAdd (wSub c.size e.size) e.size = c.size
      exact wAdd_wSub_cancel hcs hes

/-- C10 witness: a hit on a concrete two-entry cache preserves the total
size and finds the entry in the list. -/
theorem C10_get_frame_conditions_witness :
    0 ∈ (scenRun 102400 2).lru ∧
    (cache_get (scenRun 102400 2) "k0").1.size = (scenRun 102400 2).size := by
  have h := (C10_get_frame_conditions (scenRun 102400 2) "k0" (by decide)
    (by decide)).2 0 (by decide)
  exact ⟨h.1, h.2.2.2.1⟩

end Proxy
